import Mathlib

/-!
Verification of the YCM_Map normalization-and-aggregation pipeline.

Shallow embedding of `tools/convert_xlsx_to_json.py` and
`tools/make_admin_tree_and_duplicates.py`.  Strings are modelled as
`List Char`; Python dicts/Counters as association lists preserving
insertion order; the regex operations of the source are modelled by
explicit recursive functions that implement exactly the non-overlapping
leftmost-match substitution the source regexes perform.
-/

set_option maxRecDepth 4000

/-- Whitespace characters matched by Python's `\s` (with Unicode semantics)
and stripped by `str.strip()`: the ASCII control whitespace, the file/group/
record/unit separators, NEL, NBSP, OGHAM SPACE MARK, the U+2000 block,
LINE/PARAGRAPH SEPARATOR, NARROW NBSP, MMSP and IDEOGRAPHIC SPACE. -/
def wsChars : List Char :=
  ['\t', '\n', '\x0b', '\x0c', '\r', '\x1c', '\x1d', '\x1e', '\x1f', ' ',
   '\x85', '\xa0', '\u1680', '\u2000', '\u2001', '\u2002', '\u2003',
   '\u2004', '\u2005', '\u2006', '\u2007', '\u2008', '\u2009', '\u200a',
   '\u2028', '\u2029', '\u202f', '\u205f', '\u3000']

/-- Python whitespace test used by `\s`, `str.strip()` and `str.split()`. -/
def isSpace (c : Char) : Bool := decide (c ∈ wsChars)

/-- CJK unified ideographs range used by the source regexes. -/
def isCJK (c : Char) : Bool := decide (0x4e00 ≤ c.toNat ∧ c.toNat ≤ 0x9fff)

/-- ASCII lowercasing; faithful to `str.lower()` on the characters that can
ever compare equal to the `"nan"` placeholder test of `is_blank`. -/
def lowerAscii (c : Char) : Char :=
  if 'A' ≤ c ∧ c ≤ 'Z' then Char.ofNat (c.toNat + 32) else c

/-- The single-character replacements of `norm_text`:
full-width parentheses to half-width, full-width comma/semicolon to
half-width (source lines 115-117). -/
def fwMap (c : Char) : Char :=
  if c = '（' then '('
  else if c = '）' then ')'
  else if c = '；' then ';'
  else if c = '，' then ','
  else c

/-- Replacement of the ideographic space U+3000 by an ASCII space
(source line 112). -/
def ideoToSpace (s : List Char) : List Char :=
  s.map (fun c => if c = '\u3000' then ' ' else c)

/-- Model of `re.sub(r"\s+", " ", s)`: every maximal run of whitespace is
replaced by a single ASCII space.  Folding from the right, a whitespace
character emits a space unless the output already starts with one (i.e.
it belongs to the same run). -/
def collapseWs (s : List Char) : List Char :=
  s.foldr (fun c acc =>
    if isSpace c then if acc.head? = some ' ' then acc else ' ' :: acc
    else c :: acc) []

/-- Removal of trailing whitespace (the right half of `str.strip()`). -/
def dropTrail : List Char → List Char
  | [] => []
  | c :: rest =>
    match dropTrail rest with
    | [] => if isSpace c then [] else [c]
    | r => c :: r

/-- Model of Python `str.strip()`: drop leading and trailing whitespace. -/
def stripWs (s : List Char) : List Char := dropTrail (s.dropWhile isSpace)

/-- Model of `is_blank` (source lines 99-105): a value is blank when it is
whitespace-only or is the (case-insensitive) literal `nan` placeholder.
`None`/`NaN` cell values are modelled as the strings they print as, which
are caught by the same test. -/
def is_blank (s : List Char) : Bool :=
  decide (stripWs s = [] ∨ (stripWs s).map lowerAscii = ['n', 'a', 'n'])

/-- The normalization applied by `norm_text` before the final rename-table
lookup: ideographic-space replacement, whitespace collapsing, stripping,
then the full-width glyph replacements (source lines 111-117). -/
def preNorm (s : List Char) : List Char :=
  (stripWs (collapseWs (ideoToSpace s))).map fwMap

/-- Lookup in an insertion-ordered association list (Python `dict.get`). -/
def alistGet {β : Type} (k : List Char) : List (List Char × β) → Option β
  | [] => none
  | (k', v) :: rest => if k' = k then some v else alistGet k rest

/-- Assignment into an insertion-ordered association list (Python
`dict.__setitem__`): an existing key keeps its position, a new key is
appended at the end. -/
def alistSet {β : Type} (k : List Char) (v : β) :
    List (List Char × β) → List (List Char × β)
  | [] => [(k, v)]
  | (k', v') :: rest =>
    if k' = k then (k, v) :: rest else (k', v') :: alistSet k v rest

/-- Built-in fallback county rename table of `convert_xlsx_to_json.py`
(`_load_name_normalization`, source lines 57-69).  This is the table the
program uses when `raw/county_reforms.json` is absent; that configuration
file is external data, so the in-source fallback is the authoritative
table here. -/
def NAME_NORMALIZATION : List (List Char × List Char) :=
  [("台北市".toList, "臺北市".toList),
   ("台中市".toList, "臺中市".toList),
   ("台中縣".toList, "臺中市".toList),
   ("台南市".toList, "臺南市".toList),
   ("台南縣".toList, "臺南市".toList),
   ("台北縣".toList, "新北市".toList),
   ("臺北縣".toList, "新北市".toList),
   ("桃園縣".toList, "桃園市".toList),
   ("高雄縣".toList, "高雄市".toList),
   ("台東縣".toList, "臺東縣".toList)]

/-- `norm_text` (source lines 108-119), parameterized by the county rename
table so that reform configurations handed in from outside can be
reasoned about: blank-like values normalize to the empty string, anything
else is pre-normalized and then substituted through the rename table. -/
def norm_text_t (tbl : List (List Char × List Char)) (s : List Char) : List Char :=
  if is_blank s then []
  else
    match alistGet (preNorm s) tbl with
    | some v => v
    | none => preNorm s

/-- `norm_text` with the program's own (fallback) rename table. -/
def norm_text (s : List Char) : List Char := norm_text_t NAME_NORMALIZATION s

/-- Opening bracket glyphs of `split_aware_of_brackets` (source line 133). -/
def isOpeningBracket (c : Char) : Bool := decide (c = '(' ∨ c = '【' ∨ c = '[')

/-- Closing bracket glyphs of `split_aware_of_brackets` (source line 134). -/
def isClosingBracket (c : Char) : Bool := decide (c = ')' ∨ c = '】' ∨ c = ']')

/-- One step of the tokenizer's depth counter (source lines 137-140):
any opening glyph increments, any closing glyph decrements floored at
zero (`Nat` subtraction), no kind-matching. -/
def bracketStep (depth : Nat) (c : Char) : Nat :=
  if isOpeningBracket c then depth + 1
  else if isClosingBracket c then depth - 1
  else depth

/-- The character scan of `split_aware_of_brackets` (source lines 136-153):
`current` is the span being accumulated; at a separator seen at depth 0
the stripped span is emitted unless empty; the final span is emitted the
same way. -/
def sabLoop (seps : List Char) : List Char → List Char → Nat → List (List Char)
  | [], current, _ =>
    let t := stripWs current
    if t = [] then [] else [t]
  | c :: rest, current, depth =>
    let d := bracketStep depth c
    if d = 0 ∧ c ∈ seps then
      let t := stripWs current
      (if t = [] then [] else [t]) ++ sabLoop seps rest [] d
    else sabLoop seps rest (current ++ [c]) d

/-- `split_aware_of_brackets` (source lines 122-154).  When no separator
occurs anywhere in the string the scan is skipped and the string is
returned whole (source lines 127-128); all separators used by the
program are single characters, so the Python substring test `sep in s`
is character membership. -/
def split_aware_of_brackets (s : List Char) (seps : List Char) : List (List Char) :=
  if seps.any (fun sep => sep ∈ s) then sabLoop seps s [] 0 else [s]

/-- Modelled from the spec: the depth-0 separator-delimited segments of a
string ("the number of returned tokens equals the number of top-level
(depth-0) separator-delimited segments").  Used only to state the
refinement for the tokenizer claim. -/
def segSpec (seps : List Char) : List Char → Nat → List (List Char)
  | [], _ => [[]]
  | c :: rest, depth =>
    let d := bracketStep depth c
    if d = 0 ∧ c ∈ seps then [] :: segSpec seps rest d
    else
      match segSpec seps rest d with
      | [] => [[c]]
      | w :: ws => (c :: w) :: ws

/-- Model of `re.sub(open + "[^close]*" + close, "", s)` with fuel (the
fuel argument only drives structural termination; it is always called
with the length of the list, which suffices because every step consumes
at least one character).  At each position: if the character is the
opening glyph and a closing glyph occurs later, the whole span up to the
first closing glyph is a match and is removed, scanning resumes after
it; otherwise the character is kept. -/
def stripPairsF (o cl : Char) : Nat → List Char → List Char
  | 0, s => s
  | _, [] => []
  | n + 1, c :: rest =>
    if c = o ∧ cl ∈ rest then stripPairsF o cl n ((rest.dropWhile (fun d => d ≠ cl)).tail)
    else c :: stripPairsF o cl n rest

/-- Non-overlapping removal of all well-formed `o...cl` spans. -/
def stripPairs (o cl : Char) (s : List Char) : List Char := stripPairsF o cl s.length s

/-- Model of `re.findall(open + "([^close]*)" + close, s)`: the group
contents of the same non-overlapping matches removed by `stripPairs`. -/
def notesPairsF (o cl : Char) : Nat → List Char → List (List Char)
  | 0, _ => []
  | _, [] => []
  | n + 1, c :: rest =>
    if c = o ∧ cl ∈ rest then
      rest.takeWhile (fun d => d ≠ cl) :: notesPairsF o cl n ((rest.dropWhile (fun d => d ≠ cl)).tail)
    else notesPairsF o cl n rest

/-- Group contents of all well-formed `o...cl` spans, in order. -/
def notesPairs (o cl : Char) (s : List Char) : List (List Char) := notesPairsF o cl s.length s

/-- Model of `re.sub(r"([一-鿿])\s+([一-鿿])", r"\1\2", s)`
(source lines 168 and 225) with fuel: a CJK character followed by one or
more whitespace characters followed by a CJK character has the whitespace
removed; scanning resumes after the second CJK character, as `re.sub`'s
non-overlapping matches do. -/
def collapseCJKF : Nat → List Char → List Char
  | 0, s => s
  | _, [] => []
  | n + 1, c :: rest =>
    match rest.dropWhile isSpace with
    | d :: rest2 =>
      if isCJK c ∧ isCJK d ∧ rest.takeWhile isSpace ≠ [] then c :: d :: collapseCJKF n rest2
      else c :: collapseCJKF n rest
    | [] => c :: collapseCJKF n rest

/-- Removal of whitespace between adjacent ideographic characters. -/
def collapseCJK (s : List Char) : List Char := collapseCJKF s.length s

/-- Model of `re.sub(r"[(【\[].*$", "", v)` (source line 176): `.` does
not match a newline and `$` matches only at the end of the string or
just before one final newline, so the single possible match runs from
the first opening bracket after the last interior newline to the end
(sparing one final newline, which `$` lets survive).  Equivalently:
split off one trailing newline if present, take the last line of what
remains, and if that line contains an opening bracket delete from its
first opening bracket onward; otherwise the string is unchanged. -/
def stripHangingNote (s : List Char) : List Char :=
  let tail : List Char := if s.getLast? = some '\n' then ['\n'] else []
  let body := if s.getLast? = some '\n' then s.dropLast else s
  let lastLine := (body.reverse.takeWhile (fun c => c ≠ '\n')).reverse
  let pre := (body.reverse.dropWhile (fun c => c ≠ '\n')).reverse
  if lastLine.any (fun c => isOpeningBracket c) then
    pre ++ lastLine.takeWhile (fun c => ¬ isOpeningBracket c) ++ tail
  else s

/-- `clean_village_name` (source lines 157-178): collapse mid-word CJK
spaces, strip matched parentheticals, full-width brackets and square
brackets, strip a hanging (unclosed) note from the first remaining
opening bracket to the end of the line, then trim. -/
def clean_village_name (v : List Char) : List Char :=
  stripWs (stripHangingNote (stripPairs '[' ']'
    (stripPairs '【' '】'
      (stripPairs '(' ')' (collapseCJK v)))))

/-- `is_valid_village` (source lines 181-195): non-empty and ending in one
of the two admin-unit suffix glyphs. -/
def is_valid_village (v : List Char) : Bool :=
  decide (v ≠ [] ∧ (v.getLast? = some '村' ∨ v.getLast? = some '里'))

/-- The base string the annotation extractor classifies
(`extract_village_annotations`, source lines 225-232): collapse mid-word
CJK spaces, then strip matched parentheticals and matched full-width
brackets, then trim.  Square brackets and hanging (unclosed) brackets
are NOT handled here, unlike in `clean_village_name`. -/
def annotBase (tok : List Char) : List Char :=
  stripWs (stripPairs '【' '】' (stripPairs '(' ')' (collapseCJK tok)))

/-- The three-way classification the extractor's loop body performs on a
token (source lines 233-246): empty base dropped; valid village name;
otherwise a non-admin place name unless the base ends in a closing
parenthesis (tail fragment of a split parenthetical), which is dropped. -/
inductive TokClass
  | village
  | place
  | dropNote
deriving DecidableEq

/-- Classification of one token per the extractor's branch structure. -/
def classifyTok (tok : List Char) : TokClass :=
  let base := annotBase tok
  if base = [] then TokClass.dropNote
  else if is_valid_village base then TokClass.village
  else if base.getLast? ≠ some ')' then TokClass.place
  else TokClass.dropNote

/-- `'、'.join` on a list of strings. -/
def joinChars (sep : Char) : List (List Char) → List Char
  | [] => []
  | [x] => x
  | x :: xs => x ++ sep :: joinChars sep xs

/-- One entry of the `non_admin` output of `extract_village_annotations`
(source line 243): a place name that is not a 村/里 admin unit. -/
structure NonAdminEntry where
  county : List Char
  township : List Char
  name : List Char
  dialect : List Char
  note : Option (List Char)
deriving DecidableEq

/-- The loop body of `extract_village_annotations` (source lines 223-246)
applied to one token: collect bracketed note fragments, build the clean
base, then either merge notes into the village-notes table (keyed
`county|township|base`, concatenated to any existing note with the fixed
separator) or record a non-admin place entry. -/
def processTok (county township dialect : List Char)
    (st : List (List Char × List Char) × List NonAdminEntry) (tok0 : List Char) :
    List (List Char × List Char) × List NonAdminEntry :=
  let tok := collapseCJK tok0
  let all_notes := (((notesPairs '(' ')' tok) ++ (notesPairs '【' '】' tok)).map
    stripWs).filter (fun x => x ≠ [])
  let base := stripWs (stripPairs '【' '】' (stripPairs '(' ')' tok))
  if base = [] then st
  else if is_valid_village base then
    if all_notes = [] then st
    else
      let key := county ++ '|' :: township ++ '|' :: base
      let new_note := joinChars '、' all_notes
      let merged :=
        match alistGet key st.1 with
        | some existing => if existing = [] then new_note else existing ++ '、' :: new_note
        | none => new_note
      (alistSet key merged st.1, st.2)
  else if base.getLast? ≠ some ')' then
    (st.1, st.2 ++ [{ county := county, township := township, name := base,
                      dialect := dialect,
                      note := if all_notes = [] then none
                              else some (joinChars '、' all_notes) }])
  else st

/-- `extract_village_annotations` (source lines 198-248): tokenize the raw
(already normalized) village string on the extractor's separator set and
process each token. -/
def extract_village_annotations (raw county township dialect : List Char) :
    List (List Char × List Char) × List NonAdminEntry :=
  if raw = [] then ([], [])
  else (split_aware_of_brackets raw ['、', '\n', '\x00']).foldl
    (processTok county township dialect) ([], [])

/-- The tokens of one village cell after cleaning and validity filtering,
before duplicate removal (the stream the `split_multi` loop consumes). -/
def processedVillages (tbl : List (List Char × List Char)) (s : List Char) :
    List (List Char) :=
  ((split_aware_of_brackets (norm_text_t tbl s) ['、', '\n', ',', '，', '；', ';', '/']).map
    clean_village_name).filter (fun p => is_valid_village p)

/-- `split_multi` (source lines 251-270), parameterized by the county
rename table used inside `norm_text`: normalize, tokenize outside
brackets, clean each token, keep valid village names, drop duplicates
keeping first occurrence (the Python `seen` set always holds exactly the
members of the accumulated output, so the output doubles as `seen`). -/
def split_multi_t (tbl : List (List Char × List Char)) (s : List Char) :
    List (List Char) :=
  let s := norm_text_t tbl s
  if s = [] then []
  else
    (split_aware_of_brackets s ['、', '\n', ',', '，', '；', ';', '/']).foldl
      (fun acc p =>
        let p := clean_village_name p
        if is_valid_village p ∧ p ∉ acc then acc ++ [p] else acc) []

/-- `split_multi` with the program's own (fallback) rename table. -/
def split_multi (s : List Char) : List (List Char) :=
  split_multi_t NAME_NORMALIZATION s

/-- One raw spreadsheet row after forward-fill, holding the five logical
cells (the column-mapping collaborator is assumed to have mapped all five
columns; missing cells arrive as blank-like values). -/
structure SrcRow where
  language : List Char
  dialect : List Char
  county : List Char
  township : List Char
  village : List Char
deriving DecidableEq

/-- One canonical record of `df_to_records` (source line 355 with the
villages added at line 365; `INCLUDE_VILLAGES_IN_FULL` is `True` in the
source configuration). -/
structure SrcRec where
  language : List Char
  dialect : List Char
  county : List Char
  township : List Char
  villages : List (List Char)
deriving DecidableEq

/-- Built-in fallback township rename table
(`_load_township_normalization`, source lines 75-91): empty when the
external configuration file is absent. -/
def TOWNSHIP_NORMALIZATION : List (List Char × List (List Char × List Char)) := []

/-- The per-row body of `df_to_records` (source lines 344-375),
parameterized by the county rename table (used inside `norm_text`) and
the county-scoped township rename table: normalize the five cells, skip
the row when all five are empty, apply the township rename scoped by the
(already renamed) county, and split the village cell. -/
def build_record (ctbl : List (List Char × List Char))
    (ttbl : List (List Char × List (List Char × List Char)))
    (row : SrcRow) : Option SrcRec :=
  let language := norm_text_t ctbl row.language
  let dialect := norm_text_t ctbl row.dialect
  let county := norm_text_t ctbl row.county
  let township0 := norm_text_t ctbl row.township
  let village_raw := norm_text_t ctbl row.village
  if language = [] ∧ dialect = [] ∧ county = [] ∧ township0 = [] ∧ village_raw = [] then
    none
  else
    let township :=
      match alistGet county ttbl with
      | some m => (alistGet township0 m).getD township0
      | none => township0
    some { language := language, dialect := dialect, county := county,
           township := township, villages := split_multi_t ctbl village_raw }

/-- `df_to_records` (source lines 334-376) over a row list: accumulate
records in order, merge each row's village notes into the global table by
dict assignment, and append the non-admin entries. -/
def df_to_records (ctbl : List (List Char × List Char))
    (ttbl : List (List Char × List (List Char × List Char)))
    (rows : List SrcRow) :
    List SrcRec × List (List Char × List Char) × List NonAdminEntry :=
  rows.foldl (fun acc row =>
    match build_record ctbl ttbl row with
    | none => acc
    | some rec =>
      let vn := extract_village_annotations (norm_text_t ctbl row.village)
        rec.county rec.township rec.dialect
      (acc.1 ++ [rec],
       vn.1.foldl (fun m kv => alistSet kv.1 kv.2 m) acc.2.1,
       acc.2.2 ++ vn.2)) ([], [], [])

/-- The rename table hard-coded in `make_admin_tree_and_duplicates.py`
(source lines 25-30). -/
def NAME_NORMALIZATION2 : List (List Char × List Char) :=
  [("台北市".toList, "臺北市".toList),
   ("台中市".toList, "臺中市".toList),
   ("台南市".toList, "臺南市".toList),
   ("台東縣".toList, "臺東縣".toList)]

/-- `norm_text` of `make_admin_tree_and_duplicates.py` (source lines
44-52): the same transformation chain with that script's table. -/
def norm_text2 (s : List Char) : List Char := norm_text_t NAME_NORMALIZATION2 s

/-- Separator test of the duplicate script's `split_multi`
(`re.split(r"[\n,;/]+", s)`, source line 59). -/
def isSep2 (c : Char) : Bool := decide (c = '\n' ∨ c = ',' ∨ c = ';' ∨ c = '/')

/-- Splitting at every separator character.  `re.split` with a `+`-run
pattern merges adjacent separators into one split; splitting at single
characters instead yields extra empty parts between adjacent separators,
which the caller's strip-and-filter removes, so the composition is the
same function. -/
def splitOnSeps2 (s : List Char) : List (List Char) :=
  s.foldr (fun c acc =>
    if isSep2 c then [] :: acc
    else
      match acc with
      | [] => [[c]]
      | w :: ws => (c :: w) :: ws) [[]]

/-- `split_multi` of `make_admin_tree_and_duplicates.py` (source lines
55-60): normalize, split on the separator class, strip parts, drop the
empty ones. -/
def split_multi2 (s : List Char) : List (List Char) :=
  let s := norm_text2 s
  if s = [] then []
  else ((splitOnSeps2 s).map stripWs).filter (fun p => p ≠ [])

/-- Increment of a `collections.Counter` entry (`ct[key] += 1`): missing
keys count as zero; an existing key keeps its position, a new key is
appended. -/
def bump {κ : Type} [DecidableEq κ] (k : κ) : List (κ × Nat) → List (κ × Nat)
  | [] => [(k, 1)]
  | (k', n) :: rest =>
    if k' = k then (k', n + 1) :: rest else (k', n) :: bump k rest

/-- The count a counter holds for a key. -/
def countOf {κ : Type} [DecidableEq κ] (m : List (κ × Nat)) (k : κ) : Nat :=
  match m.find? (fun p => decide (p.1 = k)) with
  | some p => p.2
  | none => 0

/-- Full-tuple key of the Duplicate Detector. -/
abbrev FullKey := List Char × List Char × List Char × List Char × List Char

/-- The three counters maintained by `build_tree_and_dupes` (source lines
124-127); the markdown tree is not modelled because no claim concerns it. -/
structure DupState where
  pair_ct : List ((List Char × List Char) × Nat)
  triple_ct : List ((List Char × List Char × List Char) × Nat)
  fullrow_ct : List (FullKey × Nat)

/-- The per-row body of `build_tree_and_dupes` (source lines 129-147):
rows whose county or township normalizes to empty are skipped before any
counter is touched; otherwise the pair counter is bumped, the village
cell is split (falling back to the whole normalized cell when the split
yields nothing), and each non-empty village bumps the triple and
full-tuple counters. -/
def step_row (st : DupState) (r : SrcRow) : DupState :=
  let county := norm_text2 r.county
  let town := norm_text2 r.township
  if county = [] ∨ town = [] then st
  else
    let st1 : DupState := { st with pair_ct := bump (county, town) st.pair_ct }
    let villages_raw := norm_text2 r.village
    let sm := split_multi2 villages_raw
    let villages := if sm = [] then (if villages_raw = [] then [] else [villages_raw]) else sm
    let lang := norm_text2 r.language
    let dia := norm_text2 r.dialect
    villages.foldl (fun st2 v =>
      if v = [] then st2
      else { st2 with
             triple_ct := bump (county, town, v) st2.triple_ct,
             fullrow_ct := bump (lang, dia, county, town, v) st2.fullrow_ct }) st1

/-- `build_tree_and_dupes` restricted to its counters. -/
def build_dupes (rows : List SrcRow) : DupState :=
  rows.foldl step_row { pair_ct := [], triple_ct := [], fullrow_ct := [] }

/-- The full-tuple duplicate findings emitted by `write_duplicates_csv`
(source lines 203-205): the keys whose count exceeds one, in counter
order. -/
def full_dup_keys (rows : List SrcRow) : List FullKey :=
  (((build_dupes rows).fullrow_ct).filter (fun kn => kn.2 > 1)).map (fun kn => kn.1)

/-- The full-tuple key occurrences one raw row contributes: none when the
row is skipped, otherwise one per non-empty village token.  This is the
specification-side "raw occurrence stream" the counter is compared
against. -/
def row_occs (r : SrcRow) : List FullKey :=
  let county := norm_text2 r.county
  let town := norm_text2 r.township
  if county = [] ∨ town = [] then []
  else
    let villages_raw := norm_text2 r.village
    let sm := split_multi2 villages_raw
    let villages := if sm = [] then (if villages_raw = [] then [] else [villages_raw]) else sm
    (villages.filter (fun v => v ≠ [])).map
      (fun v => (norm_text2 r.language, norm_text2 r.dialect, county, town, v))

/-- All full-tuple key occurrences of a raw row stream. -/
def all_occs (rows : List SrcRow) : List FullKey := (rows.map row_occs).flatten

/-- Auxiliary predicate for the idempotence development: no two adjacent
ASCII spaces occur in the list. -/
def noTwoSpaces (l : List Char) : Prop :=
  List.Chain' (fun a b => ¬(a = ' ' ∧ b = ' ')) l

/-- Auxiliary for the tokenizer refinement: prepend an accumulator to the
first segment of a segment list. -/
def consApp (cur : List Char) : List (List Char) → List (List Char)
  | [] => [cur]
  | w :: ws => (cur ++ w) :: ws

/-! ### Whitespace infrastructure -/

theorem isSpace_sp : isSpace ' ' = true := by decide

theorem collapseWs_nil : collapseWs [] = [] := rfl

theorem collapseWs_cons (c : Char) (s : List Char) :
    collapseWs (c :: s) =
      if isSpace c then
        if (collapseWs s).head? = some ' ' then collapseWs s else ' ' :: collapseWs s
      else c :: collapseWs s := rfl

theorem mem_of_mem_collapseWs {c : Char} {s : List Char} (h : c ∈ collapseWs s) :
    c ∈ s ∨ c = ' ' := by
  induction s with
  | nil => simp [collapseWs] at h
  | cons d rest ih =>
    rw [collapseWs_cons] at h
    split at h
    · split at h
      · rcases ih h with h1 | h1
        · exact Or.inl (List.mem_cons_of_mem _ h1)
        · exact Or.inr h1
      · rcases List.mem_cons.mp h with h1 | h1
        · exact Or.inr h1
        · rcases ih h1 with h2 | h2
          · exact Or.inl (List.mem_cons_of_mem _ h2)
          · exact Or.inr h2
    · rcases List.mem_cons.mp h with h1 | h1
      · exact Or.inl (h1 ▸ List.mem_cons_self _ _)
      · rcases ih h1 with h2 | h2
        · exact Or.inl (List.mem_cons_of_mem _ h2)
        · exact Or.inr h2

theorem eq_sp_of_mem_collapseWs {c : Char} {s : List Char} (h : c ∈ collapseWs s)
    (hs : isSpace c = true) : c = ' ' := by
  induction s with
  | nil => simp [collapseWs] at h
  | cons d rest ih =>
    rw [collapseWs_cons] at h
    split at h
    · split at h
      · exact ih h
      · rcases List.mem_cons.mp h with h1 | h1
        · exact h1
        · exact ih h1
    · rcases List.mem_cons.mp h with h1 | h1
      · subst h1; simp_all
      · exact ih h1

theorem mem_collapseWs_of_nonspace {c : Char} {s : List Char}
    (hc : isSpace c = false) (hm : c ∈ s) : c ∈ collapseWs s := by
  induction s with
  | nil => simp at hm
  | cons d rest ih =>
    rw [collapseWs_cons]
    rcases List.mem_cons.mp hm with h1 | h1
    · subst h1
      simp [hc]
    · split
      · split
        · exact ih h1
        · exact List.mem_cons_of_mem _ (ih h1)
      · exact List.mem_cons_of_mem _ (ih h1)

theorem collapseWs_head_of_space {c : Char} {s : List Char} (h : isSpace c = true) :
    (collapseWs (c :: s)).head? = some ' ' := by
  rw [collapseWs_cons]
  simp only [h, if_true]
  split
  · assumption
  · rfl

theorem collapseWs_head_of_nonspace {c : Char} {s : List Char} (h : isSpace c = false) :
    (collapseWs (c :: s)).head? = some c := by
  rw [collapseWs_cons]
  simp [h]

theorem noTwoSpaces_collapseWs (s : List Char) : noTwoSpaces (collapseWs s) := by
  induction s with
  | nil => exact List.chain'_nil
  | cons d rest ih =>
    rw [collapseWs_cons]
    split
    · split
      · exact ih
      · rename_i hhd
        exact List.chain'_cons'.mpr ⟨fun b hb hc => hhd (hc.2 ▸ hb), ih⟩
    · rename_i hd
      exact List.chain'_cons'.mpr ⟨fun b hb hc => hd (by rw [hc.1]; exact isSpace_sp), ih⟩

theorem collapseWs_eq_self {s : List Char}
    (hsp : ∀ c ∈ s, isSpace c = true → c = ' ') (hch : noTwoSpaces s) :
    collapseWs s = s := by
  induction s with
  | nil => rfl
  | cons d rest ih =>
    have ihr : collapseWs rest = rest :=
      ih (fun c hc => hsp c (List.mem_cons_of_mem _ hc)) (List.chain'_cons'.mp hch).2
    rw [collapseWs_cons, ihr]
    by_cases hd : isSpace d = true
    · have hdsp : d = ' ' := hsp d (List.mem_cons_self _ _) hd
      subst hdsp
      have hhd : rest.head? ≠ some ' ' := by
        intro hh
        have := (List.chain'_cons'.mp hch).1 ' ' (by rw [hh]; rfl)
        exact this ⟨rfl, rfl⟩
      simp [hd, hhd]
    · simp [hd]

theorem dropTrail_cons_of_eq_nil {c : Char} {rest : List Char}
    (h : dropTrail rest = []) :
    dropTrail (c :: rest) = if isSpace c then [] else [c] := by
  rw [dropTrail, h]

theorem dropTrail_cons_of_ne_nil {c : Char} {rest : List Char}
    (h : dropTrail rest ≠ []) :
    dropTrail (c :: rest) = c :: dropTrail rest := by
  rw [dropTrail]
  cases h' : dropTrail rest with
  | nil => exact absurd h' h
  | cons x xs => rfl

theorem dropTrail_eq_nil_iff {s : List Char} :
    dropTrail s = [] ↔ ∀ c ∈ s, isSpace c = true := by
  induction s with
  | nil => simp [dropTrail]
  | cons c rest ih =>
    constructor
    · intro h d hd
      by_cases h' : dropTrail rest = []
      · rw [dropTrail_cons_of_eq_nil h'] at h
        rcases List.mem_cons.mp hd with h1 | h1
        · subst h1
          by_contra hns
          simp [hns] at h
        · exact ih.mp h' d h1
      · rw [dropTrail_cons_of_ne_nil h'] at h
        exact absurd h (List.cons_ne_nil _ _)
    · intro h
      have h' : dropTrail rest = [] := ih.mpr (fun d hd => h d (List.mem_cons_of_mem _ hd))
      rw [dropTrail_cons_of_eq_nil h', h c (List.mem_cons_self _ _)]
      rfl

theorem mem_of_mem_dropTrail {c : Char} {s : List Char} (h : c ∈ dropTrail s) : c ∈ s := by
  induction s with
  | nil => simp [dropTrail] at h
  | cons d rest ih =>
    by_cases h' : dropTrail rest = []
    · rw [dropTrail_cons_of_eq_nil h'] at h
      split at h
      · simp at h
      · simp at h
        exact h ▸ List.mem_cons_self _ _
    · rw [dropTrail_cons_of_ne_nil h'] at h
      rcases List.mem_cons.mp h with h1 | h1
      · exact h1 ▸ List.mem_cons_self _ _
      · exact List.mem_cons_of_mem _ (ih h1)

theorem head?_dropTrail {s : List Char} {d : Char} (h : (dropTrail s).head? = some d) :
    s.head? = some d := by
  cases s with
  | nil => simp [dropTrail] at h
  | cons c rest =>
    by_cases h' : dropTrail rest = []
    · rw [dropTrail_cons_of_eq_nil h'] at h
      split at h
      · simp at h
      · simp at h
        simp [h]
    · rw [dropTrail_cons_of_ne_nil h'] at h
      simp at h
      simp [h]

theorem getLast?_dropTrail_nonspace {s : List Char} {d : Char}
    (h : (dropTrail s).getLast? = some d) : isSpace d = false := by
  induction s with
  | nil => simp [dropTrail] at h
  | cons c rest ih =>
    by_cases h' : dropTrail rest = []
    · rw [dropTrail_cons_of_eq_nil h'] at h
      split at h
      · simp at h
      · rename_i hc
        simp at h
        rw [← h]
        exact Bool.not_eq_true _ ▸ Bool.of_not_eq_true hc
    · rw [dropTrail_cons_of_ne_nil h'] at h
      cases hr : dropTrail rest with
      | nil => exact absurd hr h'
      | cons x xs =>
        rw [hr, List.getLast?_cons_cons] at h
        exact ih (hr ▸ h)

theorem dropTrail_idem (s : List Char) : dropTrail (dropTrail s) = dropTrail s := by
  induction s with
  | nil => rfl
  | cons c rest ih =>
    by_cases h' : dropTrail rest = []
    · rw [dropTrail_cons_of_eq_nil h']
      split
      · rfl
      · rename_i hc
        simp [dropTrail, hc]
    · rw [dropTrail_cons_of_ne_nil h', dropTrail_cons_of_ne_nil (by rw [ih]; exact h'), ih]

theorem mem_of_mem_dropWhileSp {c : Char} {s : List Char}
    (h : c ∈ s.dropWhile isSpace) : c ∈ s := by
  induction s with
  | nil => simp at h
  | cons d rest ih =>
    rw [List.dropWhile_cons] at h
    split at h
    · exact List.mem_cons_of_mem _ (ih h)
    · exact h

theorem head?_dropWhileSp_nonspace {s : List Char} {d : Char}
    (h : (s.dropWhile isSpace).head? = some d) : isSpace d = false := by
  induction s with
  | nil => simp at h
  | cons c rest ih =>
    rw [List.dropWhile_cons] at h
    split at h
    · exact ih h
    · rename_i hc
      simp at h
      rw [← h]
      exact Bool.of_not_eq_true hc

theorem allSpace_dropWhileSp_iff {s : List Char} :
    (∀ c ∈ s.dropWhile isSpace, isSpace c = true) ↔ (∀ c ∈ s, isSpace c = true) := by
  induction s with
  | nil => simp
  | cons c rest ih =>
    rw [List.dropWhile_cons]
    split
    · rename_i hc
      rw [ih]
      constructor
      · intro h d hd
        rcases List.mem_cons.mp hd with h1 | h1
        · exact h1 ▸ hc
        · exact h d h1
      · intro h d hd
        exact h d (List.mem_cons_of_mem _ hd)
    · exact Iff.rfl

theorem stripWs_nil : stripWs [] = [] := rfl

theorem stripWs_cons_of_space {c : Char} {s : List Char} (h : isSpace c = true) :
    stripWs (c :: s) = stripWs s := by
  unfold stripWs
  rw [List.dropWhile_cons, if_pos h]

theorem stripWs_cons_of_nonspace {c : Char} {s : List Char} (h : isSpace c = false) :
    stripWs (c :: s) = dropTrail (c :: s) := by
  unfold stripWs
  rw [List.dropWhile_cons, if_neg (by simp [h])]

theorem stripWs_eq_nil_iff {s : List Char} :
    stripWs s = [] ↔ ∀ c ∈ s, isSpace c = true := by
  unfold stripWs
  rw [dropTrail_eq_nil_iff]
  exact allSpace_dropWhileSp_iff

theorem mem_of_mem_stripWs {c : Char} {s : List Char} (h : c ∈ stripWs s) : c ∈ s :=
  mem_of_mem_dropWhileSp (mem_of_mem_dropTrail h)

theorem head?_stripWs_nonspace {s : List Char} {d : Char}
    (h : (stripWs s).head? = some d) : isSpace d = false :=
  head?_dropWhileSp_nonspace (head?_dropTrail h)

theorem getLast?_stripWs_nonspace {s : List Char} {d : Char}
    (h : (stripWs s).getLast? = some d) : isSpace d = false :=
  getLast?_dropTrail_nonspace h

theorem dropWhileSp_eq_self_of_head {s : List Char}
    (h : ∀ d, s.head? = some d → isSpace d = false) : s.dropWhile isSpace = s := by
  cases s with
  | nil => rfl
  | cons c rest =>
    rw [List.dropWhile_cons, if_neg (by simp [h c rfl])]

theorem stripWs_idem (s : List Char) : stripWs (stripWs s) = stripWs s := by
  have h1 : (stripWs s).dropWhile isSpace = stripWs s :=
    dropWhileSp_eq_self_of_head (fun d hd => head?_stripWs_nonspace hd)
  show dropTrail ((stripWs s).dropWhile isSpace) = stripWs s
  rw [h1]
  show dropTrail (dropTrail (s.dropWhile isSpace)) = _
  exact dropTrail_idem _

theorem dropWhileSp_map {f : Char → Char} (hf : ∀ c, isSpace (f c) = isSpace c)
    (s : List Char) : (s.map f).dropWhile isSpace = (s.dropWhile isSpace).map f := by
  induction s with
  | nil => rfl
  | cons c rest ih =>
    rw [List.map_cons, List.dropWhile_cons, List.dropWhile_cons, hf c]
    split
    · exact ih
    · rfl

theorem dropTrail_map {f : Char → Char} (hf : ∀ c, isSpace (f c) = isSpace c)
    (s : List Char) : dropTrail (s.map f) = (dropTrail s).map f := by
  induction s with
  | nil => rfl
  | cons c rest ih =>
    rw [List.map_cons]
    by_cases h' : dropTrail rest = []
    · have h'' : dropTrail (rest.map f) = [] := by rw [ih, h']; rfl
      rw [dropTrail_cons_of_eq_nil h', dropTrail_cons_of_eq_nil h'', hf c]
      split
      · rfl
      · rfl
    · have h'' : dropTrail (rest.map f) ≠ [] := by
        rw [ih]
        intro hx
        exact h' (List.map_eq_nil_iff.mp hx)
      rw [dropTrail_cons_of_ne_nil h', dropTrail_cons_of_ne_nil h'', ih, List.map_cons]

theorem stripWs_map {f : Char → Char} (hf : ∀ c, isSpace (f c) = isSpace c)
    (s : List Char) : stripWs (s.map f) = (stripWs s).map f := by
  unfold stripWs
  rw [dropWhileSp_map hf, dropTrail_map hf]

theorem isSpace_fwMap (c : Char) : isSpace (fwMap c) = isSpace c := by
  unfold fwMap
  split_ifs with h1 h2 h3 h4
  · subst h1; decide
  · subst h2; decide
  · subst h3; decide
  · subst h4; decide
  · rfl

theorem fwMap_idem (c : Char) : fwMap (fwMap c) = fwMap c := by
  by_cases h1 : c = '（'
  · rw [h1]; decide
  by_cases h2 : c = '）'
  · rw [h2]; decide
  by_cases h3 : c = '；'
  · rw [h3]; decide
  by_cases h4 : c = '，'
  · rw [h4]; decide
  · have hc : fwMap c = c := by
      rw [fwMap, if_neg h1, if_neg h2, if_neg h3, if_neg h4]
    rw [hc]
    exact hc

theorem fwMap_eq_sp {c : Char} (h : fwMap c = ' ') : c = ' ' := by
  by_cases h1 : c = '（'
  · rw [h1] at h ⊢; simp [fwMap] at h
  by_cases h2 : c = '）'
  · rw [h2] at h ⊢; simp [fwMap] at h
  by_cases h3 : c = '；'
  · rw [h3] at h ⊢; simp [fwMap] at h
  by_cases h4 : c = '，'
  · rw [h4] at h ⊢; simp [fwMap] at h
  · rwa [fwMap, if_neg h1, if_neg h2, if_neg h3, if_neg h4] at h

theorem isSpace_ideoChar (c : Char) :
    isSpace (if c = '　' then ' ' else c) = isSpace c := by
  split_ifs with h
  · subst h; decide
  · rfl

theorem noTwoSpaces_dropWhileSp {l : List Char} (h : noTwoSpaces l) :
    noTwoSpaces (l.dropWhile isSpace) := by
  induction l with
  | nil => exact h
  | cons c rest ih =>
    rw [List.dropWhile_cons]
    split
    · exact ih (List.chain'_cons'.mp h).2
    · exact h

theorem noTwoSpaces_dropTrail {l : List Char} (h : noTwoSpaces l) :
    noTwoSpaces (dropTrail l) := by
  induction l with
  | nil => exact h
  | cons c rest ih =>
    by_cases h' : dropTrail rest = []
    · rw [dropTrail_cons_of_eq_nil h']
      split
      · exact List.chain'_nil
      · exact List.chain'_singleton _
    · rw [dropTrail_cons_of_ne_nil h']
      refine List.chain'_cons'.mpr ⟨fun b hb => ?_, ih (List.chain'_cons'.mp h).2⟩
      exact (List.chain'_cons'.mp h).1 b (head?_dropTrail hb)

theorem noTwoSpaces_stripWs {l : List Char} (h : noTwoSpaces l) :
    noTwoSpaces (stripWs l) :=
  noTwoSpaces_dropTrail (noTwoSpaces_dropWhileSp h)

theorem dropTrail_eq_self_of_getLast {l : List Char}
    (h : ∀ d, l.getLast? = some d → isSpace d = false) : dropTrail l = l := by
  induction l with
  | nil => rfl
  | cons c rest ih =>
    cases rest with
    | nil =>
      have hc := h c rfl
      simp [dropTrail, hc]
    | cons x xs =>
      have hr : dropTrail (x :: xs) = x :: xs := by
        refine ih (fun d hd => h d ?_)
        rw [List.getLast?_cons_cons]
        exact hd
      rw [dropTrail_cons_of_ne_nil (by rw [hr]; exact List.cons_ne_nil _ _), hr]

theorem map_eq_self_of_fix {f : Char → Char} {l : List Char}
    (h : ∀ c ∈ l, f c = c) : l.map f = l := by
  induction l with
  | nil => rfl
  | cons c rest ih =>
    rw [List.map_cons, h c (List.mem_cons_self _ _),
      ih (fun d hd => h d (List.mem_cons_of_mem _ hd))]

theorem preNorm_idem (s : List Char) : preNorm (preNorm s) = preNorm s := by
  have hq_sp : ∀ c ∈ stripWs (collapseWs (ideoToSpace s)), isSpace c = true → c = ' ' :=
    fun c hc hs => eq_sp_of_mem_collapseWs (mem_of_mem_stripWs hc) hs
  have hq_ch : noTwoSpaces (stripWs (collapseWs (ideoToSpace s))) :=
    noTwoSpaces_stripWs (noTwoSpaces_collapseWs _)
  have hp_sp : ∀ c ∈ preNorm s, isSpace c = true → c = ' ' := by
    intro c hc hs
    rcases List.mem_map.mp hc with ⟨d, hd, hfd⟩
    have : isSpace d = true := by rw [← isSpace_fwMap d, hfd, hs]
    have hd' : d = ' ' := hq_sp d hd this
    rw [← hfd, hd']
    decide
  have hp_ch : noTwoSpaces (preNorm s) := by
    unfold preNorm
    refine List.chain'_map_of_chain' _ ?_ hq_ch
    intro a b hab h
    exact hab ⟨fwMap_eq_sp h.1, fwMap_eq_sp h.2⟩
  have hideo : ideoToSpace (preNorm s) = preNorm s := by
    unfold ideoToSpace
    refine map_eq_self_of_fix (fun c hc => ?_)
    split_ifs with h3000
    · exfalso
      have hs : isSpace c = true := by rw [h3000]; decide
      have : c = ' ' := hp_sp c hc hs
      rw [this] at h3000
      exact absurd h3000 (by decide)
    · rfl
  have hcol : collapseWs (preNorm s) = preNorm s := collapseWs_eq_self hp_sp hp_ch
  have hstr : stripWs (preNorm s) = preNorm s := by
    have hdw : (preNorm s).dropWhile isSpace = preNorm s := by
      refine dropWhileSp_eq_self_of_head (fun d hd => ?_)
      unfold preNorm at hd
      rw [List.head?_map] at hd
      cases hh : (stripWs (collapseWs (ideoToSpace s))).head? with
      | none => rw [hh] at hd; simp at hd
      | some x =>
        rw [hh] at hd
        simp at hd
        rw [← hd, isSpace_fwMap]
        exact head?_stripWs_nonspace hh
    show dropTrail ((preNorm s).dropWhile isSpace) = preNorm s
    rw [hdw]
    refine dropTrail_eq_self_of_getLast (fun d hd => ?_)
    unfold preNorm at hd
    rw [List.getLast?_map] at hd
    cases hh : (stripWs (collapseWs (ideoToSpace s))).getLast? with
    | none => rw [hh] at hd; simp at hd
    | some x =>
      rw [hh] at hd
      simp at hd
      rw [← hd, isSpace_fwMap]
      exact getLast?_stripWs_nonspace hh
  show (stripWs (collapseWs (ideoToSpace (preNorm s)))).map fwMap = preNorm s
  rw [hideo, hcol, hstr]
  show (((stripWs (collapseWs (ideoToSpace s))).map fwMap).map fwMap) = preNorm s
  rw [List.map_map]
  exact List.map_congr_left (fun a _ => fwMap_idem a)

theorem head?_dropTrail_of_ne_nil {s : List Char} (h : dropTrail s ≠ []) :
    (dropTrail s).head? = s.head? := by
  cases s with
  | nil => exact absurd rfl h
  | cons c rest =>
    by_cases h' : dropTrail rest = []
    · rw [dropTrail_cons_of_eq_nil h'] at h ⊢
      by_cases hc : isSpace c = true
      · rw [if_pos hc] at h
        exact absurd rfl h
      · rw [if_neg hc]
        rfl
    · rw [dropTrail_cons_of_ne_nil h']
      rfl

theorem mem_of_head?_eq {c : Char} {l : List Char} (h : l.head? = some c) : c ∈ l := by
  cases l with
  | nil => simp at h
  | cons x xs =>
    simp at h
    exact h ▸ List.mem_cons_self _ _

theorem stripWs_collapseWs_spaceless {u : List Char}
    (h : ∀ c ∈ stripWs (collapseWs u), isSpace c = false) :
    stripWs u = stripWs (collapseWs u) := by
  induction u with
  | nil => rfl
  | cons c v ih =>
    by_cases hc : isSpace c = true
    · rw [stripWs_cons_of_space hc]
      rw [collapseWs_cons] at h ⊢
      simp only [hc, if_true] at h ⊢
      split at h
      · rename_i hh
        rw [if_pos hh]
        exact ih h
      · rename_i hh
        rw [if_neg hh]
        rw [stripWs_cons_of_space isSpace_sp] at h ⊢
        exact ih h
    · have hc' : isSpace c = false := Bool.not_eq_true _ ▸ hc
      rw [collapseWs_cons, if_neg hc] at h ⊢
      by_cases hv : ∀ d ∈ v, isSpace d = true
      · have hv1 : dropTrail v = [] := dropTrail_eq_nil_iff.mpr hv
        have hv2 : dropTrail (collapseWs v) = [] := by
          refine dropTrail_eq_nil_iff.mpr (fun d hd => ?_)
          rcases mem_of_mem_collapseWs hd with h1 | h1
          · exact hv d h1
          · rw [h1]; exact isSpace_sp
        rw [stripWs_cons_of_nonspace hc', stripWs_cons_of_nonspace hc',
          dropTrail_cons_of_eq_nil hv1, dropTrail_cons_of_eq_nil hv2]
      · push_neg at hv
        rcases hv with ⟨d0, hd0, hd0s⟩
        have hd0f : isSpace d0 = false := Bool.not_eq_true _ ▸ hd0s
        have hv1 : dropTrail v ≠ [] := by
          intro hx
          exact hd0s (dropTrail_eq_nil_iff.mp hx d0 hd0)
        have hv2 : dropTrail (collapseWs v) ≠ [] := by
          intro hx
          exact hd0s
            (dropTrail_eq_nil_iff.mp hx d0 (mem_collapseWs_of_nonspace hd0f hd0))
        rw [stripWs_cons_of_nonspace hc', dropTrail_cons_of_ne_nil hv2] at h
        rw [stripWs_cons_of_nonspace hc', stripWs_cons_of_nonspace hc',
          dropTrail_cons_of_ne_nil hv1, dropTrail_cons_of_ne_nil hv2]
        refine congrArg (c :: ·) ?_
        cases v with
        | nil => exact absurd hd0 (List.not_mem_nil _)
        | cons d v' =>
          by_cases hd : isSpace d = true
          · exfalso
            have hh2 : (dropTrail (collapseWs (d :: v'))).head? = some ' ' := by
              rw [head?_dropTrail_of_ne_nil hv2, collapseWs_head_of_space hd]
            have := h ' ' (List.mem_cons_of_mem _ (mem_of_head?_eq hh2))
            rw [isSpace_sp] at this
            simp at this
          · have hd' : isSpace d = false := Bool.not_eq_true _ ▸ hd
            have hdw : (collapseWs (d :: v')).dropWhile isSpace = collapseWs (d :: v') := by
              refine dropWhileSp_eq_self_of_head (fun e he => ?_)
              rw [collapseWs_head_of_nonspace hd'] at he
              simp at he
              rw [← he]
              exact hd'
            have heq : stripWs (collapseWs (d :: v')) = dropTrail (collapseWs (d :: v')) := by
              unfold stripWs
              rw [hdw]
            have hihres : stripWs (d :: v') = stripWs (collapseWs (d :: v')) := by
              refine ih (fun x hx => ?_)
              rw [heq] at hx
              exact h x (List.mem_cons_of_mem _ hx)
            rw [stripWs_cons_of_nonspace hd', heq] at hihres
            exact hihres

theorem stripWs_preNorm (s : List Char) : stripWs (preNorm s) = preNorm s := by
  have hdw : (preNorm s).dropWhile isSpace = preNorm s := by
    refine dropWhileSp_eq_self_of_head (fun d hd => ?_)
    unfold preNorm at hd
    rw [List.head?_map] at hd
    cases hh : (stripWs (collapseWs (ideoToSpace s))).head? with
    | none => rw [hh] at hd; simp at hd
    | some x =>
      rw [hh] at hd
      simp at hd
      rw [← hd, isSpace_fwMap]
      exact head?_stripWs_nonspace hh
  show dropTrail ((preNorm s).dropWhile isSpace) = preNorm s
  rw [hdw]
  refine dropTrail_eq_self_of_getLast (fun d hd => ?_)
  unfold preNorm at hd
  rw [List.getLast?_map] at hd
  cases hh : (stripWs (collapseWs (ideoToSpace s))).getLast? with
  | none => rw [hh] at hd; simp at hd
  | some x =>
    rw [hh] at hd
    simp at hd
    rw [← hd, isSpace_fwMap]
    exact getLast?_stripWs_nonspace hh

theorem preNorm_ne_nil_of_not_blank {s : List Char} (h : is_blank s = false) :
    preNorm s ≠ [] := by
  intro hp
  unfold preNorm at hp
  have hq : stripWs (collapseWs (ideoToSpace s)) = [] := List.map_eq_nil_iff.mp hp
  have hall : ∀ c ∈ collapseWs (ideoToSpace s), isSpace c = true :=
    stripWs_eq_nil_iff.mp hq
  have halls : ∀ c ∈ ideoToSpace s, isSpace c = true := by
    intro c hc
    by_contra hcs
    have hcf : isSpace c = false := Bool.not_eq_true _ ▸ hcs
    have := hall c (mem_collapseWs_of_nonspace hcf hc)
    rw [this] at hcf
    simp at hcf
  have hallss : ∀ c ∈ s, isSpace c = true := by
    intro c hc
    have := halls _ (List.mem_map_of_mem (fun c => if c = '　' then ' ' else c) hc)
    rwa [isSpace_ideoChar] at this
  have : is_blank s = true := by
    unfold is_blank
    rw [decide_eq_true_eq]
    exact Or.inl (stripWs_eq_nil_iff.mpr hallss)
  rw [this] at h
  simp at h

theorem lower_after_maps {x t : Char} (ht : t = 'n' ∨ t = 'a')
    (h : lowerAscii (fwMap (if x = '　' then ' ' else x)) = t) : lowerAscii x = t := by
  by_cases hx : x = '　'
  · rw [hx] at h
    simp only [if_pos] at h
    rw [show fwMap ' ' = ' ' from by decide] at h
    rw [show lowerAscii ' ' = ' ' from by decide] at h
    rcases ht with rfl | rfl
    · exact absurd h (by decide)
    · exact absurd h (by decide)
  · rw [if_neg hx] at h
    by_cases h1 : x = '（'
    · rw [h1] at h
      rw [show lowerAscii (fwMap '（') = '(' from by decide] at h
      rcases ht with rfl | rfl
      · exact absurd h (by decide)
      · exact absurd h (by decide)
    by_cases h2 : x = '）'
    · rw [h2] at h
      rw [show lowerAscii (fwMap '）') = ')' from by decide] at h
      rcases ht with rfl | rfl
      · exact absurd h (by decide)
      · exact absurd h (by decide)
    by_cases h3 : x = '；'
    · rw [h3] at h
      rw [show lowerAscii (fwMap '；') = ';' from by decide] at h
      rcases ht with rfl | rfl
      · exact absurd h (by decide)
      · exact absurd h (by decide)
    by_cases h4 : x = '，'
    · rw [h4] at h
      rw [show lowerAscii (fwMap '，') = ',' from by decide] at h
      rcases ht with rfl | rfl
      · exact absurd h (by decide)
      · exact absurd h (by decide)
    · rwa [fwMap, if_neg h1, if_neg h2, if_neg h3, if_neg h4] at h

theorem lowerAscii_eq_of_space {c t : Char} (ht : t = 'n' ∨ t = 'a')
    (hs : isSpace c = true) (h : lowerAscii c = t) : False := by
  have hcl : lowerAscii c = c := by
    unfold lowerAscii
    split_ifs with hAZ
    · exfalso
      rw [isSpace, decide_eq_true_eq] at hs
      rcases hAZ with ⟨hA, hZ⟩
      fin_cases hs <;> revert hA hZ <;> decide
    · rfl
  rw [hcl] at h
  subst h
  rcases ht with h | h <;> rw [h] at hs <;> exact absurd hs (by decide)

theorem preNorm_not_nan_of_not_blank {s : List Char} (h : is_blank s = false) :
    (preNorm s).map lowerAscii ≠ ['n', 'a', 'n'] := by
  intro hnan
  have hsp : ∀ c ∈ preNorm s, isSpace c = false := by
    intro c hc
    by_contra hcs
    have hcs' : isSpace c = true := Bool.of_not_eq_false (by simpa using hcs)
    have hmem : lowerAscii c ∈ (preNorm s).map lowerAscii := List.mem_map_of_mem _ hc
    rw [hnan] at hmem
    simp at hmem
    rcases hmem with h1 | h1 | h1
    · exact lowerAscii_eq_of_space (Or.inl rfl) hcs' h1
    · exact lowerAscii_eq_of_space (Or.inr rfl) hcs' h1
    · exact lowerAscii_eq_of_space (Or.inl rfl) hcs' h1
  have hspq : ∀ c ∈ stripWs (collapseWs (ideoToSpace s)), isSpace c = false := by
    intro c hc
    have : fwMap c ∈ preNorm s := List.mem_map_of_mem _ hc
    have := hsp _ this
    rwa [isSpace_fwMap] at this
  have hT : stripWs (ideoToSpace s) = stripWs (collapseWs (ideoToSpace s)) :=
    stripWs_collapseWs_spaceless hspq
  have hmapstr : stripWs (ideoToSpace s) = ideoToSpace (stripWs s) :=
    stripWs_map isSpace_ideoChar s
  have hform : (preNorm s).map lowerAscii =
      ((stripWs s).map (fun x => lowerAscii (fwMap (if x = '　' then ' ' else x)))) := by
    unfold preNorm
    rw [← hT, hmapstr]
    unfold ideoToSpace
    rw [List.map_map, List.map_map]
    rfl
  rw [hform] at hnan
  cases hr : stripWs s with
  | nil => rw [hr] at hnan; simp at hnan
  | cons x1 r1 =>
    cases r1 with
    | nil => rw [hr] at hnan; simp at hnan
    | cons x2 r2 =>
      cases r2 with
      | nil => rw [hr] at hnan; simp at hnan
      | cons x3 r3 =>
        cases r3 with
        | cons x4 r4 => rw [hr] at hnan; simp at hnan
        | nil =>
          rw [hr] at hnan
          simp at hnan
          obtain ⟨e1, e2, e3⟩ := hnan
          have l1 : lowerAscii x1 = 'n' := lower_after_maps (Or.inl rfl) e1
          have l2 : lowerAscii x2 = 'a' := lower_after_maps (Or.inr rfl) e2
          have l3 : lowerAscii x3 = 'n' := lower_after_maps (Or.inl rfl) e3
          have : is_blank s = true := by
            unfold is_blank
            rw [decide_eq_true_eq]
            refine Or.inr ?_
            rw [hr]
            simp [l1, l2, l3]
          rw [this] at h
          simp at h

theorem alistGet_mem {β : Type} {k : List Char} {v : β}
    {tbl : List (List Char × β)} (h : alistGet k tbl = some v) : (k, v) ∈ tbl := by
  induction tbl with
  | nil => simp [alistGet] at h
  | cons kv rest ih =>
    rw [alistGet] at h
    split at h
    · rename_i heq
      simp at h
      have hkv : kv = (k, v) := by
        rw [← heq, ← h]
      exact List.mem_cons.mpr (Or.inl hkv.symm)
    · exact List.mem_cons_of_mem _ (ih h)

theorem norm_text_t_idem {tbl : List (List Char × List Char)}
    (hv : ∀ kv ∈ tbl, norm_text_t tbl kv.2 = kv.2) (s : List Char) :
    norm_text_t tbl (norm_text_t tbl s) = norm_text_t tbl s := by
  by_cases hb : is_blank s = true
  · have hinner : norm_text_t tbl s = [] := by rw [norm_text_t, if_pos hb]
    rw [hinner, norm_text_t, if_pos (show is_blank [] = true by decide)]
  · have hbf : is_blank s = false := Bool.not_eq_true _ ▸ hb
    cases hget : alistGet (preNorm s) tbl with
    | some v =>
      have hinner : norm_text_t tbl s = v := by simp [norm_text_t, hb, hget]
      rw [hinner]
      exact hv (preNorm s, v) (alistGet_mem hget)
    | none =>
      have hinner : norm_text_t tbl s = preNorm s := by simp [norm_text_t, hb, hget]
      have hbp : is_blank (preNorm s) = false := by
        unfold is_blank
        rw [decide_eq_false_iff_not]
        rw [stripWs_preNorm]
        push_neg
        exact ⟨preNorm_ne_nil_of_not_blank hbf, preNorm_not_nan_of_not_blank hbf⟩
      rw [hinner, norm_text_t, if_neg (by simp [hbp]), preNorm_idem, hget]

/-- C6: text normalization is idempotent: for every input value `x`,
`norm_text (norm_text x) = norm_text x`, including the final county-rename
table substitution step — the rename table's values are fixed points of
the whole normalization, so normalizing an already-normalized string (in
particular a renamed county name) is a no-op. -/
theorem C6_norm_text_idempotent (x : List Char) :
    norm_text (norm_text x) = norm_text x :=
  norm_text_t_idem (by decide) x

/-- C1: for every reform configuration with a county rename `A → B` and a
township rename table scoped to the renamed county `B` mapping `X → Y`,
building a record from a row whose county cell normalizes to `A` (before
the rename-table substitution) and whose township cell normalizes to `X`
yields a record with county `B` and township `Y`: the county rename is
applied inside `norm_text` before the township lookup, which keys on the
already-renamed county name. -/
theorem C1_reform_order
    (ctbl : List (List Char × List Char))
    (ttbl : List (List Char × List (List Char × List Char)))
    (row : SrcRow) (A B X Y : List Char) (m : List (List Char × List Char))
    (hc_blank : is_blank row.county = false)
    (hc_pre : preNorm row.county = A)
    (hAB : alistGet A ctbl = some B)
    (hB : B ≠ [])
    (hTbl : alistGet B ttbl = some m)
    (hXY : alistGet X m = some Y)
    (hT : norm_text_t ctbl row.township = X) :
    ∃ rec : SrcRec, build_record ctbl ttbl row = some rec ∧
      rec.county = B ∧ rec.township = Y := by
  have hcounty : norm_text_t ctbl row.county = B := by
    rw [norm_text_t, if_neg (by simp [hc_blank]), hc_pre, hAB]
  simp only [build_record]
  rw [hcounty, hT, hTbl]
  rw [if_neg (fun hand => hB hand.2.2.1)]
  simp only [hXY, Option.getD_some]
  exact ⟨_, rfl, rfl, rfl⟩

/-- Witness for C1 at the reform named in the source comment:
county rename 桃園縣 → 桃園市 with township rename 復興鄉 → 復興區 scoped
to the renamed county 桃園市. -/
theorem C1_reform_order_witness :
    ∃ rec : SrcRec,
      build_record [("桃園縣".toList, "桃園市".toList)]
        [("桃園市".toList, [("復興鄉".toList, "復興區".toList)])]
        { language := "泰雅語".toList, dialect := "賽考利克".toList,
          county := "桃園縣".toList, township := "復興鄉".toList,
          village := [] } = some rec ∧
      rec.county = "桃園市".toList ∧ rec.township = "復興區".toList :=
  C1_reform_order [("桃園縣".toList, "桃園市".toList)]
    [("桃園市".toList, [("復興鄉".toList, "復興區".toList)])]
    { language := "泰雅語".toList, dialect := "賽考利克".toList,
      county := "桃園縣".toList, township := "復興鄉".toList, village := [] }
    "桃園縣".toList "桃園市".toList "復興鄉".toList "復興區".toList
    [("復興鄉".toList, "復興區".toList)]
    (by decide) (by decide) (by decide) (by decide) (by decide) (by decide)
    (by decide)

/-- C7: the single input row with language 阿美語, dialect 海岸阿美, county
台東縣, township 長濱鄉 and village cell 長樂村(和平路、八賢路)、三間村
produces county 臺東縣, villages exactly [長樂村, 三間村] in that order, the
annotation entry 臺東縣|長濱鄉|長樂村 → 和平路、八賢路, and no non-admin
place names. -/
theorem C7_end_to_end :
    df_to_records NAME_NORMALIZATION TOWNSHIP_NORMALIZATION
      [{ language := "阿美語".toList, dialect := "海岸阿美".toList,
         county := "台東縣".toList, township := "長濱鄉".toList,
         village := "長樂村(和平路、八賢路)、三間村".toList }] =
      ([{ language := "阿美語".toList, dialect := "海岸阿美".toList,
          county := "臺東縣".toList, township := "長濱鄉".toList,
          villages := ["長樂村".toList, "三間村".toList] }],
       [("臺東縣|長濱鄉|長樂村".toList, "和平路、八賢路".toList)],
       ([] : List NonAdminEntry)) := by decide

/-! ### Tokenizer refinement -/

theorem segSpec_ne_nil (seps : List Char) (u : List Char) (d : Nat) :
    segSpec seps u d ≠ [] := by
  cases u with
  | nil => simp [segSpec]
  | cons c rest =>
    rw [segSpec]
    split
    · simp
    · split <;> simp

theorem sabLoop_nil (seps cur : List Char) (d : Nat) :
    sabLoop seps [] cur d = if stripWs cur = [] then [] else [stripWs cur] := rfl

theorem sabLoop_cons (seps cur : List Char) (c : Char) (rest : List Char) (d : Nat) :
    sabLoop seps (c :: rest) cur d =
      if bracketStep d c = 0 ∧ c ∈ seps then
        (if stripWs cur = [] then [] else [stripWs cur]) ++ sabLoop seps rest [] (bracketStep d c)
      else sabLoop seps rest (cur ++ [c]) (bracketStep d c) := rfl

theorem segSpec_cons (seps : List Char) (c : Char) (rest : List Char) (d : Nat) :
    segSpec seps (c :: rest) d =
      if bracketStep d c = 0 ∧ c ∈ seps then [] :: segSpec seps rest (bracketStep d c)
      else
        match segSpec seps rest (bracketStep d c) with
        | [] => [[c]]
        | w :: ws => (c :: w) :: ws := rfl

theorem sabLoop_segSpec (seps : List Char) (u : List Char) :
    ∀ (cur : List Char) (d : Nat),
      sabLoop seps u cur d =
        ((consApp cur (segSpec seps u d)).map stripWs).filter (fun t => !t.isEmpty) := by
  induction u with
  | nil =>
    intro cur d
    rw [sabLoop_nil, segSpec]
    simp only [consApp, List.append_nil, List.map_cons, List.map_nil, List.filter_cons]
    by_cases hsc : stripWs cur = []
    · simp [hsc]
    · simp [hsc]
  | cons c rest ih =>
    intro cur d
    rw [sabLoop_cons, segSpec_cons]
    by_cases hsep : bracketStep d c = 0 ∧ c ∈ seps
    · rw [if_pos hsep, if_pos hsep, ih [] (bracketStep d c)]
      cases hS : segSpec seps rest (bracketStep d c) with
      | nil => exact absurd hS (segSpec_ne_nil seps rest (bracketStep d c))
      | cons w ws =>
        simp only [consApp, List.nil_append, List.append_nil, List.map_cons,
          List.filter_cons]
        by_cases hsc : stripWs cur = []
        · simp [hsc]
        · simp [hsc]
    · rw [if_neg hsep, if_neg hsep, ih (cur ++ [c]) (bracketStep d c)]
      cases hS : segSpec seps rest (bracketStep d c) with
      | nil => exact absurd hS (segSpec_ne_nil seps rest (bracketStep d c))
      | cons w ws =>
        simp only [consApp]
        rw [List.append_cons cur c w]

/-- C2 counterexample: for the input consisting of a single space and
separator set {、}, no separator occurs in the input, so the tokenizer
returns the input whole as its one token; that token is not trimmed and
is empty after trimming, refuting "every returned token is trimmed and
non-empty after trimming" as a statement about every input string. -/
theorem C2_counterexample :
    split_aware_of_brackets [' '] ['、'] = [[' ']] ∧ stripWs [' '] = [] := by
  decide

/-- C2 amended: provided at least one separator character occurs in the
input (otherwise the scan is skipped and the input is returned whole,
untrimmed and possibly blank), the tokenizer returns exactly the
depth-0 separator-delimited segments (depth incremented by any of the
three opening glyphs and decremented floored at zero by any closing
glyph, no kind-matching — so a separator inside a balanced bracket pair,
where the depth is positive, never causes a split), each segment trimmed,
with segments that are empty after trimming dropped; consequently every
returned token is trimmed and non-empty. -/
theorem C2_tokenizer_segments (s seps : List Char)
    (h : seps.any (fun sep => sep ∈ s) = true) :
    split_aware_of_brackets s seps =
      ((segSpec seps s 0).map stripWs).filter (fun t => !t.isEmpty) ∧
    ∀ t ∈ split_aware_of_brackets s seps, stripWs t = t ∧ t ≠ [] := by
  have heq : split_aware_of_brackets s seps =
      ((segSpec seps s 0).map stripWs).filter (fun t => !t.isEmpty) := by
    rw [split_aware_of_brackets, if_pos h, sabLoop_segSpec]
    cases hS : segSpec seps s 0 with
    | nil => exact absurd hS (segSpec_ne_nil seps s 0)
    | cons w ws => simp [consApp]
  refine ⟨heq, fun t ht => ?_⟩
  rw [heq] at ht
  rcases List.mem_filter.mp ht with ⟨hmem, hne⟩
  rcases List.mem_map.mp hmem with ⟨w, _, hw⟩
  constructor
  · rw [← hw, stripWs_idem]
  · intro hnil
    rw [hnil] at hne
    simp at hne

/-- Witness for the amended C2 on an input containing a separator, with a
bracketed separator that must not split. -/
theorem C2_tokenizer_segments_witness :
    split_aware_of_brackets "a(b、c)、 d".toList ['、'] =
      ((segSpec ['、'] "a(b、c)、 d".toList 0).map stripWs).filter (fun t => !t.isEmpty) ∧
    ∀ t ∈ split_aware_of_brackets "a(b、c)、 d".toList ['、'],
      stripWs t = t ∧ t ≠ [] :=
  C2_tokenizer_segments "a(b、c)、 d".toList ['、'] (by decide)

/-- C3: every token's bracket-stripped base is classified into exactly one
of village, place, dropped: a VillageName exactly when the base ends in
one of the two admin-unit suffix glyphs 村 or 里; a PlaceName exactly
when the base is non-empty, not suffix-qualified, and does not end in a
closing parenthesis; dropped exactly when the base is empty or ends in a
closing parenthesis. -/
theorem C3_classifier_total (tok : List Char) :
    (classifyTok tok = TokClass.village ↔
      ((annotBase tok).getLast? = some '村' ∨ (annotBase tok).getLast? = some '里')) ∧
    (classifyTok tok = TokClass.place ↔
      (annotBase tok ≠ [] ∧
        ¬((annotBase tok).getLast? = some '村' ∨ (annotBase tok).getLast? = some '里') ∧
        (annotBase tok).getLast? ≠ some ')')) ∧
    (classifyTok tok = TokClass.dropNote ↔
      (annotBase tok = [] ∨ (annotBase tok).getLast? = some ')')) := by
  simp only [classifyTok]
  by_cases hb : annotBase tok = []
  · rw [if_pos hb, hb]
    exact ⟨by decide, by decide, by decide⟩
  · rw [if_neg hb]
    by_cases hval : is_valid_village (annotBase tok) = true
    · rw [if_pos hval]
      unfold is_valid_village at hval
      rw [decide_eq_true_eq] at hval
      obtain ⟨hne, hsuf⟩ := hval
      have hnp : (annotBase tok).getLast? ≠ some ')' := by
        rcases hsuf with h1 | h1 <;> rw [h1] <;> decide
      exact ⟨iff_of_true rfl hsuf,
        iff_of_false (fun h => nomatch h) (fun hand => hand.2.1 hsuf),
        iff_of_false (fun h => nomatch h)
          (fun hOr => hOr.elim (fun h1 => hb h1) (fun h1 => hnp h1))⟩
    · rw [if_neg hval]
      have hval' : ¬((annotBase tok).getLast? = some '村' ∨
          (annotBase tok).getLast? = some '里') := by
        intro hsuf
        exact hval (by unfold is_valid_village; rw [decide_eq_true_eq]; exact ⟨hb, hsuf⟩)
      by_cases hp : (annotBase tok).getLast? ≠ some ')'
      · rw [if_pos hp]
        exact ⟨iff_of_false (fun h => nomatch h) hval',
          iff_of_true rfl ⟨hb, hval', hp⟩,
          iff_of_false (fun h => nomatch h)
            (fun hOr => hOr.elim (fun h1 => hb h1) (fun h1 => hp h1))⟩
      · rw [if_neg hp]
        push_neg at hp
        exact ⟨iff_of_false (fun h => nomatch h) hval',
          iff_of_false (fun h => nomatch h) (fun hand => hand.2.2 hp),
          iff_of_true rfl (Or.inr hp)⟩

theorem mem_of_getLast?_eq {l : List Char} {a : Char} (h : l.getLast? = some a) :
    a ∈ l := by
  induction l with
  | nil => simp at h
  | cons c rest ih =>
    cases rest with
    | nil =>
      simp at h
      exact h ▸ List.mem_cons_self _ _
    | cons d rest' =>
      rw [List.getLast?_cons_cons] at h
      exact List.mem_cons_of_mem _ (ih h)

theorem takeWhile_all {p : Char → Bool} :
    ∀ {l : List Char}, (∀ c ∈ l, p c = true) → l.takeWhile p = l := by
  intro l
  induction l with
  | nil => intro _; rfl
  | cons c rest ih =>
    intro h
    rw [List.takeWhile_cons, if_pos (h c (List.mem_cons_self _ _)),
      ih (fun d hd => h d (List.mem_cons_of_mem _ hd))]

theorem dropWhile_all {p : Char → Bool} :
    ∀ {l : List Char}, (∀ c ∈ l, p c = true) → l.dropWhile p = [] := by
  intro l
  induction l with
  | nil => intro _; rfl
  | cons c rest ih =>
    intro h
    rw [List.dropWhile_cons, if_pos (h c (List.mem_cons_self _ _))]
    exact ih (fun d hd => h d (List.mem_cons_of_mem _ hd))

theorem mem_of_mem_dropWhileP {p : Char → Bool} {c : Char} :
    ∀ {l : List Char}, c ∈ l.dropWhile p → c ∈ l := by
  intro l
  induction l with
  | nil => intro h; simp at h
  | cons d rest ih =>
    rw [List.dropWhile_cons]
    split
    · intro h
      exact List.mem_cons_of_mem _ (ih h)
    · intro h
      exact h

theorem stripHangingNote_of_no_newline {s : List Char} (h : '\n' ∉ s) :
    stripHangingNote s = s.takeWhile (fun c => ¬ isOpeningBracket c) := by
  have hlast : ¬ s.getLast? = some '\n' := fun heq => h (mem_of_getLast?_eq heq)
  have h1 : s.reverse.takeWhile (fun c => c ≠ '\n') = s.reverse :=
    takeWhile_all (fun c hc => by
      simp only [decide_eq_true_eq]
      exact fun hceq => h (hceq ▸ List.mem_reverse.mp hc))
  have h2 : s.reverse.dropWhile (fun c => c ≠ '\n') = [] :=
    dropWhile_all (fun c hc => by
      simp only [decide_eq_true_eq]
      exact fun hceq => h (hceq ▸ List.mem_reverse.mp hc))
  simp only [stripHangingNote, if_neg hlast, h1, h2, List.reverse_reverse,
    List.reverse_nil, List.nil_append]
  by_cases hany : s.any (fun c => isOpeningBracket c) = true
  · rw [if_pos hany, List.append_nil]
  · rw [if_neg hany]
    have hall : ∀ c ∈ s, isOpeningBracket c = false := by
      intro c hc
      by_contra hop
      refine hany (List.any_eq_true.mpr ⟨c, hc, ?_⟩)
      revert hop
      cases isOpeningBracket c
      · intro hop
        exact absurd rfl hop
      · intro _
        rfl
    exact (takeWhile_all (fun c hc => by simp [hall c hc])).symm

theorem mem_of_mem_collapseCJKF :
    ∀ (n : Nat) (s : List Char) {c : Char}, c ∈ collapseCJKF n s → c ∈ s := by
  intro n
  induction n with
  | zero =>
    intro s c h
    simp only [collapseCJKF] at h
    exact h
  | succ n ih =>
    intro s c h
    cases s with
    | nil =>
      simp only [collapseCJKF] at h
      exact h
    | cons c0 rest =>
      simp only [collapseCJKF] at h
      cases hdw : rest.dropWhile isSpace with
      | nil =>
        simp only [hdw] at h
        rcases List.mem_cons.mp h with h1 | h1
        · exact h1 ▸ List.mem_cons_self _ _
        · exact List.mem_cons_of_mem _ (ih rest h1)
      | cons d rest2 =>
        simp only [hdw] at h
        split at h
        · rcases List.mem_cons.mp h with h1 | h1
          · exact h1 ▸ List.mem_cons_self _ _
          · rcases List.mem_cons.mp h1 with h2 | h2
            · have hmem : c ∈ rest.dropWhile isSpace := by
                rw [hdw]
                exact h2 ▸ List.mem_cons_self _ _
              exact List.mem_cons_of_mem _ (mem_of_mem_dropWhileP hmem)
            · have hmem : c ∈ rest.dropWhile isSpace := by
                rw [hdw]
                exact List.mem_cons_of_mem _ (ih rest2 h2)
              exact List.mem_cons_of_mem _ (mem_of_mem_dropWhileP hmem)
        · rcases List.mem_cons.mp h with h1 | h1
          · exact h1 ▸ List.mem_cons_self _ _
          · exact List.mem_cons_of_mem _ (ih rest h1)

theorem mem_of_mem_stripPairsF (o cl : Char) :
    ∀ (n : Nat) (s : List Char) {c : Char}, c ∈ stripPairsF o cl n s → c ∈ s := by
  intro n
  induction n with
  | zero =>
    intro s c h
    simp only [stripPairsF] at h
    exact h
  | succ n ih =>
    intro s c h
    cases s with
    | nil =>
      simp only [stripPairsF] at h
      exact h
    | cons c0 rest =>
      simp only [stripPairsF] at h
      split at h
      · have h2 : c ∈ rest.dropWhile (fun d => d ≠ cl) :=
          List.mem_of_mem_tail (ih _ h)
        exact List.mem_cons_of_mem _ (mem_of_mem_dropWhileP h2)
      · rcases List.mem_cons.mp h with h1 | h1
        · exact h1 ▸ List.mem_cons_self _ _
        · exact List.mem_cons_of_mem _ (ih rest h1)

theorem clean_village_name_no_opener {v : List Char} {c : Char} (hnl : '\n' ∉ v)
    (hc : c ∈ clean_village_name v) : isOpeningBracket c = false := by
  have hnl4 : '\n' ∉ stripPairs '[' ']'
      (stripPairs '【' '】' (stripPairs '(' ')' (collapseCJK v))) := by
    intro hmem
    exact hnl (mem_of_mem_collapseCJKF _ _ (mem_of_mem_stripPairsF _ _ _ _
      (mem_of_mem_stripPairsF _ _ _ _ (mem_of_mem_stripPairsF _ _ _ _ hmem))))
  unfold clean_village_name at hc
  rw [stripHangingNote_of_no_newline hnl4] at hc
  have h1 := mem_of_mem_stripWs hc
  have h2 := List.mem_takeWhile_imp h1
  simpa using h2

/-- C4 counterexample: the base the annotation extractor classifies does
NOT have the hanging note removed: for the token 長樂村(和平路 the
extractor's base is the token itself, not 長樂村 as the claim states. -/
theorem C4_counterexample :
    annotBase "長樂村(和平路".toList = "長樂村(和平路".toList ∧
    annotBase "長樂村(和平路".toList ≠ "長樂村".toList := by decide

/-- C4 amended: the full stripping — all well-formed bracketed substrings
of the three bracket kinds plus the hanging note from the first unmatched
opening bracket to the end of the line — is performed by
`clean_village_name`, the cleaner used when building the villages list:
on every newline-free token (the regex's `.` and `$` do not cross a
newline, and every token the pipeline feeds the cleaner is newline-free
because `norm_text` collapses whitespace runs to single spaces) its
output contains no opening bracket, and it maps 長樂村(和平路 to 長樂村.
The base used by the annotation extractor's classifier strips only
well-formed parenthetical and full-width-bracket pairs and keeps hanging
notes, so there 長樂村(和平路 stays unchanged. -/
theorem C4_amended_bases :
    (∀ v : List Char, '\n' ∉ v →
      ∀ c ∈ clean_village_name v, isOpeningBracket c = false) ∧
    clean_village_name "長樂村(和平路".toList = "長樂村".toList ∧
    annotBase "長樂村(和平路".toList = "長樂村(和平路".toList :=
  ⟨fun _ hnl _ hc => clean_village_name_no_opener hnl hc, by decide, by decide⟩

/-- Witness for the amended C4 at a concrete newline-free token with a
hanging note. -/
theorem C4_amended_bases_witness :
    ('\n' ∉ "a(b".toList) ∧ isOpeningBracket 'a' = false :=
  ⟨by decide, C4_amended_bases.1 "a(b".toList (by decide) 'a' (by decide)⟩

/-- C5 counterexample: merging the same note twice for the same key
duplicates it: the cell A村(x)、A村(x) stores the note x、x (x twice) at
its key, not x once as the claim's de-duplication would require. -/
theorem C5_counterexample :
    alistGet "c|t|A村".toList
        (extract_village_annotations "A村(x)、A村(x)".toList
          "c".toList "t".toList "d".toList).1 =
      some "x、x".toList ∧
    some "x、x".toList ≠ some ("x".toList : List Char) := by decide

theorem alistGet_alistSet_self {β : Type} (k : List Char) (v : β)
    (m : List (List Char × β)) : alistGet k (alistSet k v m) = some v := by
  induction m with
  | nil => simp [alistSet, alistGet]
  | cons kv rest ih =>
    rw [alistSet]
    split
    · rw [alistGet, if_pos rfl]
    · rw [alistGet]
      split
      · rename_i hne heq
        exact absurd heq hne
      · exact ih

theorem processTok_Ax (county township dialect : List Char)
    (st : List (List Char × List Char) × List NonAdminEntry) :
    processTok county township dialect st "A村(x)".toList =
      (alistSet (county ++ '|' :: township ++ '|' :: "A村".toList)
        (match alistGet (county ++ '|' :: township ++ '|' :: "A村".toList) st.1 with
         | some existing => if existing = [] then "x".toList
                            else existing ++ '、' :: "x".toList
         | none => "x".toList) st.1, st.2) := by
  have h1 : collapseCJK "A村(x)".toList = "A村(x)".toList := by decide
  have h2 : (((notesPairs '(' ')' "A村(x)".toList) ++
      (notesPairs '【' '】' "A村(x)".toList)).map stripWs).filter (fun x => x ≠ []) =
      ["x".toList] := by decide
  have h3 : stripWs (stripPairs '【' '】' (stripPairs '(' ')' "A村(x)".toList)) =
      "A村".toList := by decide
  simp only [processTok, h1, h2, h3]
  rw [if_neg (by decide : ¬("A村".toList : List Char) = []),
    if_pos (by decide : is_valid_village "A村".toList = true),
    if_neg (by decide : ¬(["x".toList] : List (List Char)) = [])]
  rfl

/-- C5 amended: annotation fragments for the same `county|township|base`
key are concatenated with the fixed separator 、 unconditionally — there
is no de-duplication, so merging note N twice for the same key stores
N、N (N twice), as shown for N = x with an arbitrary key context. -/
theorem C5_notes_no_dedup (county township dialect : List Char) :
    alistGet (county ++ '|' :: township ++ '|' :: "A村".toList)
      (extract_village_annotations "A村(x)、A村(x)".toList county township dialect).1 =
    some "x、x".toList := by
  have hsplit : split_aware_of_brackets "A村(x)、A村(x)".toList ['、', '\n', '\x00'] =
      ["A村(x)".toList, "A村(x)".toList] := by decide
  unfold extract_village_annotations
  rw [if_neg (by decide), hsplit, List.foldl_cons, List.foldl_cons, List.foldl_nil,
    processTok_Ax, processTok_Ax]
  simp only [alistGet]
  rw [alistGet_alistSet_self]
  rfl

/-! ### split_multi invariants -/

theorem sm_foldl_nodup (parts : List (List Char)) :
    ∀ acc : List (List Char), acc.Nodup →
      (parts.foldl (fun acc p =>
        let p := clean_village_name p
        if is_valid_village p ∧ p ∉ acc then acc ++ [p] else acc) acc).Nodup := by
  induction parts with
  | nil => exact fun acc h => h
  | cons p rest ih =>
    intro acc hacc
    simp only [List.foldl_cons]
    split
    · rename_i hcond
      refine ih _ (List.nodup_append.mpr ⟨hacc, List.nodup_singleton _, ?_⟩)
      intro x hx hy
      rw [List.mem_singleton] at hy
      exact hcond.2 (hy ▸ hx)
    · exact ih _ hacc

theorem sm_foldl_sublist (parts : List (List Char)) :
    ∀ acc : List (List Char),
      List.Sublist
        (parts.foldl (fun acc p =>
          let p := clean_village_name p
          if is_valid_village p ∧ p ∉ acc then acc ++ [p] else acc) acc)
        (acc ++ (parts.map clean_village_name).filter (fun p => is_valid_village p)) := by
  induction parts with
  | nil =>
    intro acc
    simp
  | cons p rest ih =>
    intro acc
    simp only [List.foldl_cons, List.map_cons, List.filter_cons]
    by_cases hval : is_valid_village (clean_village_name p) = true
    · rw [if_pos hval]
      by_cases hmem : clean_village_name p ∈ acc
      · rw [if_neg (fun hand => hand.2 hmem)]
        refine (ih acc).trans ?_
        refine List.Sublist.append_left ?_ acc
        exact List.sublist_cons_self _ _
      · rw [if_pos ⟨hval, hmem⟩]
        refine (ih (acc ++ [clean_village_name p])).trans ?_
        rw [List.append_assoc]
        exact List.Sublist.refl _
    · rw [if_neg (fun hand => hval hand.1), if_neg (by simp [hval])]
      exact ih acc

theorem sm_foldl_mem (parts : List (List Char)) :
    ∀ (acc : List (List Char)) (v : List Char),
      v ∈ (parts.foldl (fun acc p =>
        let p := clean_village_name p
        if is_valid_village p ∧ p ∉ acc then acc ++ [p] else acc) acc) ↔
      v ∈ acc ∨ v ∈ (parts.map clean_village_name).filter (fun p => is_valid_village p) := by
  induction parts with
  | nil =>
    intro acc v
    simp
  | cons p rest ih =>
    intro acc v
    simp only [List.foldl_cons, List.map_cons, List.filter_cons]
    by_cases hval : is_valid_village (clean_village_name p) = true
    · rw [if_pos hval]
      by_cases hmem : clean_village_name p ∈ acc
      · rw [if_neg (fun hand => hand.2 hmem)]
        rw [ih acc v, List.mem_cons]
        constructor
        · rintro (h | h)
          · exact Or.inl h
          · exact Or.inr (Or.inr h)
        · rintro (h | h | h)
          · exact Or.inl h
          · exact Or.inl (h ▸ hmem)
          · exact Or.inr h
      · rw [if_pos ⟨hval, hmem⟩]
        rw [ih _ v, List.mem_append, List.mem_singleton, List.mem_cons]
        constructor
        · rintro ((h | h) | h)
          · exact Or.inl h
          · exact Or.inr (Or.inl h)
          · exact Or.inr (Or.inr h)
        · rintro (h | h | h)
          · exact Or.inl (Or.inl h)
          · exact Or.inl (Or.inr h)
          · exact Or.inr h
    · rw [if_neg (fun hand => hval hand.1), if_neg (by simp [hval]), ih acc v]

theorem fwMap_eq_nl {c : Char} (h : fwMap c = '\n') : c = '\n' := by
  by_cases h1 : c = '（'
  · rw [h1] at h
    exact absurd h (by decide)
  by_cases h2 : c = '）'
  · rw [h2] at h
    exact absurd h (by decide)
  by_cases h3 : c = '；'
  · rw [h3] at h
    exact absurd h (by decide)
  by_cases h4 : c = '，'
  · rw [h4] at h
    exact absurd h (by decide)
  · rwa [fwMap, if_neg h1, if_neg h2, if_neg h3, if_neg h4] at h

theorem nl_not_mem_preNorm (s : List Char) : '\n' ∉ preNorm s := by
  intro hmem
  rcases List.mem_map.mp hmem with ⟨d, hd, hfd⟩
  have hd' : d = '\n' := fwMap_eq_nl hfd
  subst hd'
  have h1 : ('\n' : Char) = ' ' :=
    eq_sp_of_mem_collapseWs (mem_of_mem_stripWs hd) (by decide)
  exact absurd h1 (by decide)

theorem nl_not_mem_norm_text (s : List Char) :
    '\n' ∉ norm_text_t NAME_NORMALIZATION s := by
  rw [norm_text_t]
  by_cases hb : is_blank s = true
  · rw [if_pos hb]
    exact List.not_mem_nil _
  · rw [if_neg hb]
    cases hget : alistGet (preNorm s) NAME_NORMALIZATION with
    | some v =>
      have hv : (preNorm s, v) ∈ NAME_NORMALIZATION := alistGet_mem hget
      have hval : ∀ kv ∈ NAME_NORMALIZATION, '\n' ∉ kv.2 := by decide
      simp only [hget]
      exact hval _ hv
    | none =>
      simp only [hget]
      exact nl_not_mem_preNorm s

theorem mem_segSpec_chars (seps : List Char) :
    ∀ (u : List Char) (d : Nat) {w : List Char} {c : Char},
      w ∈ segSpec seps u d → c ∈ w → c ∈ u := by
  intro u
  induction u with
  | nil =>
    intro d w c hw hc
    simp [segSpec] at hw
    subst hw
    simp at hc
  | cons ch rest ih =>
    intro d w c hw hc
    rw [segSpec_cons] at hw
    split at hw
    · rcases List.mem_cons.mp hw with h1 | h1
      · subst h1
        simp at hc
      · exact List.mem_cons_of_mem _ (ih _ h1 hc)
    · cases hS : segSpec seps rest (bracketStep d ch) with
      | nil => exact absurd hS (segSpec_ne_nil seps rest (bracketStep d ch))
      | cons w0 ws =>
        simp only [hS] at hw
        rcases List.mem_cons.mp hw with h1 | h1
        · subst h1
          rcases List.mem_cons.mp hc with h2 | h2
          · exact h2 ▸ List.mem_cons_self _ _
          · have hw0 : w0 ∈ segSpec seps rest (bracketStep d ch) := by
              rw [hS]
              exact List.mem_cons_self _ _
            exact List.mem_cons_of_mem _ (ih _ hw0 h2)
        · have hw1 : w ∈ segSpec seps rest (bracketStep d ch) := by
            rw [hS]
            exact List.mem_cons_of_mem _ h1
          exact List.mem_cons_of_mem _ (ih _ hw1 hc)

theorem mem_token_chars {u seps t : List Char} {c : Char}
    (ht : t ∈ split_aware_of_brackets u seps) (hc : c ∈ t) : c ∈ u := by
  rw [split_aware_of_brackets] at ht
  split at ht
  · rw [sabLoop_segSpec] at ht
    have hcons : consApp [] (segSpec seps u 0) = segSpec seps u 0 := by
      cases hS : segSpec seps u 0 with
      | nil => exact absurd hS (segSpec_ne_nil seps u 0)
      | cons w ws => simp [consApp]
    rw [hcons] at ht
    rcases List.mem_filter.mp ht with ⟨hmap, _⟩
    rcases List.mem_map.mp hmap with ⟨w, hw, hwt⟩
    refine mem_segSpec_chars seps u 0 hw ?_
    rw [← hwt] at hc
    exact mem_of_mem_stripWs hc
  · rcases List.mem_cons.mp ht with h1 | h1
    · exact h1 ▸ hc
    · simp at h1

/-- C8: for every raw village cell the villages sequence built for the
record (with the program's rename table) has no duplicate entries; it is
a sublist of the cleaned-and-filtered token stream (so first-appearance
order is preserved) with exactly the same members (so only duplicates
are removed); and every element ends in one of the two admin-unit suffix
glyphs and contains no opening bracket (its bracket/annotation content
has been stripped — every token the cleaner sees is newline-free since
`norm_text` collapses whitespace, so the hanging-note strip always
applies). -/
theorem C8_villages_invariants (s : List Char) :
    (split_multi s).Nodup ∧
    List.Sublist (split_multi s) (processedVillages NAME_NORMALIZATION s) ∧
    (∀ v, v ∈ split_multi s ↔ v ∈ processedVillages NAME_NORMALIZATION s) ∧
    (∀ v ∈ split_multi s,
      (v.getLast? = some '村' ∨ v.getLast? = some '里') ∧
      ∀ c ∈ v, isOpeningBracket c = false) := by
  have helem : ∀ v ∈ processedVillages NAME_NORMALIZATION s,
      (v.getLast? = some '村' ∨ v.getLast? = some '里') ∧
      ∀ c ∈ v, isOpeningBracket c = false := by
    intro v hv
    unfold processedVillages at hv
    rcases List.mem_filter.mp hv with ⟨hmap, hval⟩
    rcases List.mem_map.mp hmap with ⟨q, hqmem, hq⟩
    have hnlq : ('\n' : Char) ∉ q :=
      fun hm => nl_not_mem_norm_text s (mem_token_chars hqmem hm)
    constructor
    · unfold is_valid_village at hval
      rw [decide_eq_true_eq] at hval
      exact hval.2
    · intro c hc
      exact clean_village_name_no_opener hnlq (hq ▸ hc)
  rw [split_multi]
  by_cases hs : norm_text_t NAME_NORMALIZATION s = []
  · have h1 : split_multi_t NAME_NORMALIZATION s = [] := by
      rw [split_multi_t, hs]
      rfl
    have h2 : processedVillages NAME_NORMALIZATION s = [] := by
      rw [processedVillages, hs]
      decide
    rw [h1, h2]
    exact ⟨List.nodup_nil, List.Sublist.refl _, fun v => Iff.rfl,
      fun v hv => absurd hv (List.not_mem_nil _)⟩
  · have h1 : split_multi_t NAME_NORMALIZATION s =
        (split_aware_of_brackets (norm_text_t NAME_NORMALIZATION s)
          ['、', '\n', ',', '，', '；', ';', '/']).foldl
          (fun acc p =>
            let p := clean_village_name p
            if is_valid_village p ∧ p ∉ acc then acc ++ [p] else acc) [] := by
      rw [split_multi_t]
      rw [if_neg hs]
    have h2 : processedVillages NAME_NORMALIZATION s =
        ((split_aware_of_brackets (norm_text_t NAME_NORMALIZATION s)
          ['、', '\n', ',', '，', '；', ';', '/']).map clean_village_name).filter
          (fun p => is_valid_village p) := rfl
    refine ⟨?_, ?_, ?_, fun v hv => ?_⟩
    · rw [h1]
      exact sm_foldl_nodup _ [] List.nodup_nil
    · rw [h1, h2]
      exact sm_foldl_sublist _ []
    · intro v
      rw [h1, h2]
      rw [sm_foldl_mem]
      simp
    · refine helem v ?_
      rw [h1] at hv
      rcases (sm_foldl_mem _ [] v).mp hv with h | h
      · exact absurd h (List.not_mem_nil _)
      · rw [h2]
        exact h

/-! ### Duplicate-detector counters -/

theorem countOf_cons {κ : Type} [DecidableEq κ] (a : κ) (b : Nat)
    (rest : List (κ × Nat)) (k : κ) :
    countOf ((a, b) :: rest) k = if a = k then b else countOf rest k := by
  unfold countOf
  by_cases h : a = k
  · rw [if_pos h]
    rw [List.find?_cons_of_pos _ (by simp [h])]
  · rw [if_neg h]
    rw [List.find?_cons_of_neg _ (by simp [h])]

theorem countOf_bump {κ : Type} [DecidableEq κ] (m : List (κ × Nat)) (k k' : κ) :
    countOf (bump k m) k' = countOf m k' + (if k = k' then 1 else 0) := by
  induction m with
  | nil =>
    rw [bump, countOf_cons]
    by_cases h : k = k'
    · rw [if_pos h, if_pos h]
      rfl
    · rw [if_neg h, if_neg h]
      rfl
  | cons kv rest ih =>
    obtain ⟨k0, n⟩ := kv
    rw [bump]
    split
    · rename_i hk0
      rw [countOf_cons, countOf_cons]
      by_cases h : k0 = k'
      · rw [if_pos h, if_pos h, if_pos (hk0 ▸ h)]
      · rw [if_neg h, if_neg h, if_neg (fun hx => h (hk0.symm ▸ hx))]
        omega
    · rename_i hk0
      rw [countOf_cons, countOf_cons]
      by_cases h : k0 = k'
      · rw [if_pos h, if_pos h, if_neg (fun hx => hk0 (h.trans hx.symm))]
        omega
      · rw [if_neg h, if_neg h]
        exact ih

theorem mem_bump_keys {κ : Type} [DecidableEq κ] {m : List (κ × Nat)} (k x : κ) :
    x ∈ (bump k m).map Prod.fst ↔ x ∈ m.map Prod.fst ∨ x = k := by
  induction m with
  | nil => simp [bump]
  | cons kv rest ih =>
    obtain ⟨k0, n⟩ := kv
    rw [bump]
    split
    · rename_i hk0
      simp only [List.map_cons, List.mem_cons]
      constructor
      · rintro (h | h)
        · exact Or.inl (Or.inl h)
        · exact Or.inl (Or.inr h)
      · rintro ((h | h) | h)
        · exact Or.inl h
        · exact Or.inr h
        · exact Or.inl (by rw [h, ← hk0])
    · simp only [List.map_cons, List.mem_cons, ih]
      constructor
      · rintro (h | h | h)
        · exact Or.inl (Or.inl h)
        · exact Or.inl (Or.inr h)
        · exact Or.inr h
      · rintro ((h | h) | h)
        · exact Or.inl h
        · exact Or.inr (Or.inl h)
        · exact Or.inr (Or.inr h)

theorem bump_keys_nodup {κ : Type} [DecidableEq κ] {m : List (κ × Nat)} (k : κ)
    (h : (m.map Prod.fst).Nodup) : ((bump k m).map Prod.fst).Nodup := by
  induction m with
  | nil => simp [bump]
  | cons kv rest ih =>
    obtain ⟨k0, n⟩ := kv
    rw [bump]
    split
    · exact h
    · rename_i hk0
      rw [List.map_cons, List.nodup_cons] at h ⊢
      refine ⟨fun hx => ?_, ih h.2⟩
      rcases (mem_bump_keys k k0).mp hx with h1 | h1
      · exact h.1 h1
      · exact hk0 h1

theorem countOf_of_mem {κ : Type} [DecidableEq κ] {m : List (κ × Nat)}
    (hnd : (m.map Prod.fst).Nodup) {k : κ} {n : Nat} (h : (k, n) ∈ m) :
    countOf m k = n := by
  induction m with
  | nil => simp at h
  | cons kv rest ih =>
    obtain ⟨k0, n0⟩ := kv
    rw [List.map_cons, List.nodup_cons] at hnd
    rcases List.mem_cons.mp h with h1 | h1
    · obtain ⟨hk, hn⟩ := Prod.mk.injEq _ _ _ _ ▸ h1
      rw [countOf_cons, if_pos hk.symm, hn]
    · rw [countOf_cons]
      have hke : k0 ≠ k := by
        intro hk
        exact hnd.1 (hk ▸ (List.mem_map_of_mem Prod.fst h1 : (k, n).fst ∈ _))
      rw [if_neg hke]
      exact ih hnd.2 h1

theorem vfold_full_count (lang dia county town : List Char) (vs : List (List Char)) :
    ∀ (st : DupState) (k : FullKey),
      countOf ((vs.foldl (fun st2 v =>
        if v = [] then st2
        else { st2 with
               triple_ct := bump (county, town, v) st2.triple_ct,
               fullrow_ct := bump (lang, dia, county, town, v) st2.fullrow_ct }) st).fullrow_ct) k =
      countOf st.fullrow_ct k +
        ((vs.filter (fun v => v ≠ [])).map
          (fun v => (lang, dia, county, town, v))).count k := by
  induction vs with
  | nil =>
    intro st k
    simp
  | cons v rest ih =>
    intro st k
    simp only [List.foldl_cons, List.filter_cons]
    by_cases hv : v = []
    · rw [if_pos hv, if_neg (by simp [hv])]
      exact ih st k
    · rw [if_neg hv, if_pos (by simp [hv]), List.map_cons, List.count_cons, ih]
      simp only [countOf_bump]
      have : ((lang, dia, county, town, v) == k) = decide ((lang, dia, county, town, v) = k) := by
        rw [Bool.eq_iff_iff]
        simp [beq_iff_eq]
      rw [this]
      by_cases hk : (lang, dia, county, town, v) = k
      · rw [if_pos hk, if_pos (by simp [hk])]
        omega
      · rw [if_neg hk, if_neg (by simp [hk])]
        omega

theorem vfold_full_keys_nodup (lang dia county town : List Char) (vs : List (List Char)) :
    ∀ st : DupState, (st.fullrow_ct.map Prod.fst).Nodup →
      (((vs.foldl (fun st2 v =>
        if v = [] then st2
        else { st2 with
               triple_ct := bump (county, town, v) st2.triple_ct,
               fullrow_ct := bump (lang, dia, county, town, v) st2.fullrow_ct }) st).fullrow_ct).map Prod.fst).Nodup := by
  induction vs with
  | nil => exact fun st h => h
  | cons v rest ih =>
    intro st h
    simp only [List.foldl_cons]
    by_cases hv : v = []
    · rw [if_pos hv]
      exact ih st h
    · rw [if_neg hv]
      exact ih _ (bump_keys_nodup _ h)

theorem step_row_full_count (r : SrcRow) (st : DupState) (k : FullKey) :
    countOf ((step_row st r).fullrow_ct) k =
      countOf st.fullrow_ct k + (row_occs r).count k := by
  rw [step_row, row_occs]
  by_cases hskip : norm_text2 r.county = [] ∨ norm_text2 r.township = []
  · rw [if_pos hskip, if_pos hskip]
    simp
  · rw [if_neg hskip, if_neg hskip]
    rw [vfold_full_count]

theorem step_row_full_keys_nodup (r : SrcRow) (st : DupState)
    (h : (st.fullrow_ct.map Prod.fst).Nodup) :
    (((step_row st r).fullrow_ct).map Prod.fst).Nodup := by
  rw [step_row]
  by_cases hskip : norm_text2 r.county = [] ∨ norm_text2 r.township = []
  · rw [if_pos hskip]
    exact h
  · rw [if_neg hskip]
    exact vfold_full_keys_nodup _ _ _ _ _ _ h

theorem build_fold_full_count (rows : List SrcRow) :
    ∀ (st : DupState) (k : FullKey),
      countOf ((rows.foldl step_row st).fullrow_ct) k =
        countOf st.fullrow_ct k + ((rows.map row_occs).flatten).count k := by
  induction rows with
  | nil =>
    intro st k
    simp
  | cons r rest ih =>
    intro st k
    rw [List.foldl_cons, ih, step_row_full_count, List.map_cons, List.flatten_cons,
      List.count_append]
    omega

theorem build_fold_full_keys_nodup (rows : List SrcRow) :
    ∀ st : DupState, (st.fullrow_ct.map Prod.fst).Nodup →
      (((rows.foldl step_row st).fullrow_ct).map Prod.fst).Nodup := by
  induction rows with
  | nil => exact fun st h => h
  | cons r rest ih =>
    intro st h
    rw [List.foldl_cons]
    exact ih _ (step_row_full_keys_nodup r st h)

/-- C9: the Duplicate Detector's full-tuple counter is keyed by the
complete 5-tuple (language, dialect, county, township, village): the
count stored for a key equals the number of raw occurrences of exactly
that key (so occurrences differing in dialect feed different counters
and are never merged), and a full-tuple DuplicateFinding is emitted for
a key exactly when that key's count exceeds one. -/
theorem C9_full_tuple_counter (rows : List SrcRow) (k : FullKey) :
    countOf (build_dupes rows).fullrow_ct k = (all_occs rows).count k ∧
    (k ∈ full_dup_keys rows ↔ (all_occs rows).count k > 1) := by
  have hcount : countOf (build_dupes rows).fullrow_ct k = (all_occs rows).count k := by
    rw [build_dupes, build_fold_full_count, all_occs]
    exact Nat.zero_add _
  have hnd : (((build_dupes rows).fullrow_ct).map Prod.fst).Nodup := by
    rw [build_dupes]
    exact build_fold_full_keys_nodup rows _ List.nodup_nil
  refine ⟨hcount, ?_, ?_⟩
  · intro hmem
    rw [full_dup_keys] at hmem
    rcases List.mem_map.mp hmem with ⟨kn, hkn, hfst⟩
    rcases List.mem_filter.mp hkn with ⟨hknm, hgt⟩
    rw [decide_eq_true_eq] at hgt
    have : countOf (build_dupes rows).fullrow_ct k = kn.2 := by
      refine countOf_of_mem hnd ?_
      rw [← hfst]
      exact hknm
    rw [hcount] at this
    rw [this]
    exact hgt
  · intro hgt
    rw [← hcount] at hgt
    rw [full_dup_keys]
    unfold countOf at hgt
    cases hf : ((build_dupes rows).fullrow_ct).find? (fun p => decide (p.1 = k)) with
    | none =>
      rw [hf] at hgt
      simp at hgt
    | some p =>
      rw [hf] at hgt
      have hp1 : p.1 = k := by
        have := List.find?_some hf
        rwa [decide_eq_true_eq] at this
      have hpm : p ∈ (build_dupes rows).fullrow_ct := List.mem_of_find?_eq_some hf
      refine List.mem_map.mpr ⟨p, List.mem_filter.mpr ⟨hpm, ?_⟩, hp1⟩
      rw [decide_eq_true_eq]
      exact hgt

/-- C10: a raw row whose county or township normalizes to the empty
string is skipped before any of the three counters is touched, so the
whole counter state of the Duplicate Detector is unchanged by such rows:
it equals the state built from the stream with those rows filtered out,
and hence such occurrences can never appear in a DuplicateFinding even
when repeated. -/
theorem C10_blank_rows_skipped (rows : List SrcRow) :
    build_dupes rows = build_dupes (rows.filter
      (fun r => ¬(norm_text2 r.county = [] ∨ norm_text2 r.township = []))) := by
  rw [build_dupes, build_dupes]
  generalize ({ pair_ct := [], triple_ct := [], fullrow_ct := [] } : DupState) = st
  induction rows generalizing st with
  | nil => rfl
  | cons r rest ih =>
    rw [List.foldl_cons, List.filter_cons]
    by_cases hskip : norm_text2 r.county = [] ∨ norm_text2 r.township = []
    · have hstep : step_row st r = st := by
        rw [step_row, if_pos hskip]
      rw [hstep, if_neg (by simp [hskip])]
      exact ih st
    · rw [if_pos (by simp [hskip]), List.foldl_cons]
      exact ih (step_row st r)
